import Mathlib

/-!
Verification of the LFU cache implementation (`src/lib.rs`).

The cache is embedded shallowly:

* The Rust `HashMap<K, Value<V>>` is modelled as an association list
  `List (K × Value V)`; the operations `mapGet`, `mapInsert`, `mapRemove`
  mirror `get_mut`/`insert`/`remove`.  Its iteration order is never used by
  the source, so an association list with distinct keys is faithful.
* The `LinkedVector<(usize, LinkedVector<K>)>` frequency ledger is modelled as
  `List (Nat × List K)` — front of the Rust list is the head of the Lean list,
  each bucket's queue likewise (front of queue = head).
* `HNode` locator handles: a `Value` record's `hfreq` handle always points at
  the bucket whose stored frequency equals the number we record (bucket
  frequencies are kept strictly sorted, hence unique); its `hpos` handle
  points at the node holding the record's own key (keys appearing at most
  once across the ledger).  So `hfreq` is modelled by the bucket's frequency
  value and `hpos` by the key itself.  A handle that does not resolve to a
  live element — a Rust panic — is modelled by an `Option` failure (`none`).
-/

namespace LfuSpec

variable {K V : Type} [DecidableEq K]

/-- Model of the Rust `Value<V>` record: the stored value, and the frequency of
the bucket its `hfreq` handle refers to (`hpos` is determined by the key, see
the module comment). -/
structure Value (V : Type) where
  value : V
  hfreq : Nat
deriving DecidableEq, Repr

/-- Model of `LfuCache<K, V>`: the hash map as an association list, the
frequency ledger, and the fixed capacity. -/
structure LfuCache (K V : Type) where
  map : List (K × Value V)
  frequencies : List (Nat × List K)
  capacity : Nat
deriving DecidableEq, Repr

/-- Association-list lookup, modelling `HashMap::get`/`get_mut`. -/
def mapGet (k : K) : List (K × Value V) → Option (Value V)
  | [] => none
  | (k1, w) :: rest => if k1 = k then some w else mapGet k rest

/-- Association-list insertion, modelling `HashMap::insert`: replaces the
binding of `k` if present, otherwise adds one. -/
def mapInsert (k : K) (w : Value V) : List (K × Value V) → List (K × Value V)
  | [] => [(k, w)]
  | (k1, w1) :: rest =>
      if k1 = k then (k, w) :: rest else (k1, w1) :: mapInsert k w rest

/-- Association-list removal, modelling `HashMap::remove`. -/
def mapRemove (k : K) : List (K × Value V) → List (K × Value V)
  | [] => []
  | (k1, w1) :: rest => if k1 = k then rest else (k1, w1) :: mapRemove k rest

/-- Removal of the node holding key `k` from a bucket's queue, modelling
`LinkedVector::remove(hpos)` (the handle `hpos` resolves to the first — in a
well-formed cache, only — node holding `k`). -/
def qremove (k : K) : List K → List K
  | [] => []
  | x :: xs => if x = k then xs else x :: qremove k xs

/-- The tail of `incr_freq`'s ledger after the original bucket of frequency
`f`: if the immediately following bucket has frequency `f + 1` the key is
pushed to its back, otherwise a fresh bucket `(f + 1, [k])` is spliced in
right after the original bucket (`curs.insert_after(newq)`). -/
def insTarget (f : Nat) (k : K) : List (Nat × List K) → List (Nat × List K)
  | [] => [(f + 1, [k])]
  | (f2, q2) :: rest =>
      if f2 = f + 1 then (f2, q2 ++ [k]) :: rest
      else (f + 1, [k]) :: (f2, q2) :: rest

/-- Model of `LfuCache::incr_freq`.  `f0` is the frequency of the bucket the
record's `hfreq` handle points at and `k` the key its `hpos` handle holds.
The cursor walk to that bucket is the recursion; a handle that resolves to no
live bucket, or a `hpos` not in that bucket's queue, is a panic (`none`).
Returns the updated ledger and the new `hfreq` value (`f0 + 1`). -/
def incr_freq (f0 : Nat) (k : K) : List (Nat × List K) → Option (List (Nat × List K) × Nat)
  | [] => none
  | (f, q) :: rest =>
      if f = f0 then
        if k ∈ q then
          let q1 := qremove k q
          let tail := insTarget f k rest
          some ((if q1 = [] then tail else (f, q1) :: tail), f + 1)
        else none
      else
        match incr_freq f0 k rest with
        | some (fq1, r) => some ((f, q) :: fq1, r)
        | none => none

/-- Model of `LfuCache::remove_lfu`: pop the front key of the front bucket and
remove it from the map; afterwards drop the bucket when it is empty and its
frequency is not 1 (`queue.0 != 1 && queue.1.is_empty()`).  An empty ledger is
a no-op (`front_node()` returns `None`). -/
def remove_lfu (freq_qs : List (Nat × List K)) (map : List (K × Value V)) :
    List (Nat × List K) × List (K × Value V) :=
  match freq_qs with
  | [] => ([], map)
  | (f, q) :: rest =>
      match q with
      | [] => if f ≠ 1 then (rest, map) else ((f, []) :: rest, map)
      | key :: qt =>
          if f ≠ 1 ∧ qt = [] then (rest, mapRemove key map)
          else ((f, qt) :: rest, mapRemove key map)

/-- The frequency-1 bucket step of `insert`'s new-key branch: if the ledger's
front bucket has frequency 1 it is reused (`front_node().unwrap()` — `none`
models the `unwrap` failing), otherwise a fresh bucket is pushed at the front;
either way the new key is pushed to the back of that bucket's queue. -/
def pushFreq1 (k : K) (fq : List (Nat × List K)) : Option (List (Nat × List K)) :=
  if (fq.head?.map Prod.fst) = some 1 then
    match fq with
    | (f, q) :: rest => some ((f, q ++ [k]) :: rest)
    | [] => none
  else
    some ((1, [k]) :: fq)

/-- Model of `LfuCache::new`. -/
def LfuCache.new (capacity : Nat) : LfuCache K V :=
  { map := [], frequencies := [], capacity := capacity }

/-- Model of `LfuCache::insert`. -/
def LfuCache.insert (c : LfuCache K V) (k : K) (v : V) : Option (LfuCache K V) :=
  if c.capacity = 0 then some c
  else
    match mapGet k c.map with
    | some vrec =>
        match incr_freq vrec.hfreq k c.frequencies with
        | some (fq1, f1) =>
            some { c with map := mapInsert k ⟨v, f1⟩ c.map, frequencies := fq1 }
        | none => none
    | none =>
        let fm :=
          if c.capacity ≤ c.map.length then remove_lfu c.frequencies c.map
          else (c.frequencies, c.map)
        match pushFreq1 k fm.1 with
        | some fq1 =>
            some { c with map := mapInsert k ⟨v, 1⟩ fm.2, frequencies := fq1 }
        | none => none

/-- Model of `LfuCache::get`: a miss returns the cache unchanged; a hit runs
`incr_freq` and returns the (unchanged) stored value. -/
def LfuCache.get (c : LfuCache K V) (k : K) : Option (Option V × LfuCache K V) :=
  match mapGet k c.map with
  | none => some (none, c)
  | some vrec =>
      match incr_freq vrec.hfreq k c.frequencies with
      | some (fq1, f1) =>
          some (some vrec.value,
                { c with map := mapInsert k ⟨vrec.value, f1⟩ c.map,
                         frequencies := fq1 })
      | none => none

/-- A public operation on the cache. -/
inductive Op (K V : Type) where
  | ins (k : K) (v : V)
  | get (k : K)
deriving DecidableEq, Repr

/-- One public operation applied to a cache state (`none` = panic). -/
def step (c : LfuCache K V) : Op K V → Option (LfuCache K V)
  | .ins k v => c.insert k v
  | .get k => (c.get k).map Prod.snd

/-- A sequence of public operations applied to a cache state. -/
def run (c : LfuCache K V) : List (Op K V) → Option (LfuCache K V)
  | [] => some c
  | op :: ops => (step c op).bind fun c1 => run c1 ops

/-- The states reachable from `new cap` by public operations. -/
def Reachable (cap : Nat) (c : LfuCache K V) : Prop :=
  ∃ ops : List (Op K V), run (LfuCache.new cap) ops = some c

/-- All keys stored across the ledger's buckets, in ledger-then-queue order. -/
def ledgerKeys : List (Nat × List K) → List K
  | [] => []
  | b :: rest => b.2 ++ ledgerKeys rest

/-- The recorded frequency of a cached key, read off its map record. -/
def freqOf (c : LfuCache K V) (k : K) : Option Nat :=
  (mapGet k c.map).map Value.hfreq

/-- Well-formedness of a cache state: the internal invariants that the public
operations maintain, stated over the shallow model. -/
structure WF (c : LfuCache K V) : Prop where
  sorted : List.Pairwise (· < ·) (c.frequencies.map Prod.fst)
  onePos : ∀ b ∈ c.frequencies, 1 ≤ b.1
  nonem : ∀ b ∈ c.frequencies, b.2 ≠ []
  keysNodup : (ledgerKeys c.frequencies).Nodup
  mapNodup : (c.map.map Prod.fst).Nodup
  inLedger : ∀ k w, mapGet k c.map = some w →
    ∃ q, (w.hfreq, q) ∈ c.frequencies ∧ k ∈ q
  inMap : ∀ k, k ∈ ledgerKeys c.frequencies → ∃ w, mapGet k c.map = some w
  sizeLe : c.map.length ≤ c.capacity

/-- A cache state instrumented for recency reasoning: alongside the cache, an
association list recording for each key the index of the operation that last
inserted-or-accessed it, and a clock counting the operations performed. -/
structure TState (K V : Type) where
  cache : LfuCache K V
  touch : List (K × Nat)
  clock : Nat
deriving DecidableEq, Repr

/-- Last-touch time of a key (0 before any touch). -/
def touchOf (t : List (K × Nat)) (k : K) : Nat :=
  match t with
  | [] => 0
  | (k1, n) :: rest => if k1 = k then n else touchOf rest k

/-- The key an operation touches (inserts-or-accesses): an insert touches its
key unless the cache has capacity 0; a get touches its key exactly on a hit. -/
def touchedKey (c : LfuCache K V) : Op K V → Option K
  | .ins k _ => if c.capacity = 0 then none else some k
  | .get k => if (mapGet k c.map).isSome then some k else none

/-- One public operation on an instrumented state: the cache steps as in
`step`, the touched key (if any) is stamped with the current clock, and the
clock advances. -/
def stepT (s : TState K V) (op : Op K V) : Option (TState K V) :=
  (step s.cache op).map fun c1 =>
    { cache := c1,
      touch := match touchedKey s.cache op with
               | some k => (k, s.clock) :: s.touch
               | none => s.touch,
      clock := s.clock + 1 }

/-- A sequence of operations on an instrumented state. -/
def runT (s : TState K V) : List (Op K V) → Option (TState K V)
  | [] => some s
  | op :: ops => (stepT s op).bind fun s1 => runT s1 ops

/-- The freshly constructed instrumented state. -/
def TState.init (cap : Nat) : TState K V :=
  { cache := LfuCache.new cap, touch := [], clock := 0 }

/-- The instrumented states reachable from a freshly constructed cache. -/
def TReachable (cap : Nat) (s : TState K V) : Prop :=
  ∃ ops : List (Op K V), runT (TState.init cap) ops = some s

/-- Well-formedness of an instrumented state: the cache invariants, strictly
increasing last-touch times along every bucket queue (so the front of each
queue is its least recently touched key), and every ledger key touched
before the current clock. -/
structure TWF (s : TState K V) : Prop where
  wf : WF s.cache
  recency : ∀ b ∈ s.cache.frequencies,
    List.Pairwise (fun a c => touchOf s.touch a < touchOf s.touch c) b.2
  touchLt : ∀ k ∈ ledgerKeys s.cache.frequencies, touchOf s.touch k < s.clock

theorem ledgerKeys_append (l1 l2 : List (Nat × List K)) :
    ledgerKeys (l1 ++ l2) = ledgerKeys l1 ++ ledgerKeys l2 := by
  induction l1 with
  | nil => rfl
  | cons b rest ih => simp [ledgerKeys, ih]

theorem mem_ledgerKeys {k : K} {fq : List (Nat × List K)} :
    k ∈ ledgerKeys fq ↔ ∃ b ∈ fq, k ∈ b.2 := by
  induction fq with
  | nil => simp [ledgerKeys]
  | cons b rest ih => simp [ledgerKeys, ih]

theorem mapGet_mapInsert_self (k : K) (w : Value V) (m : List (K × Value V)) :
    mapGet k (mapInsert k w m) = some w := by
  induction m with
  | nil => simp [mapInsert, mapGet]
  | cons p rest ih =>
      obtain ⟨k1, w1⟩ := p
      by_cases h : k1 = k <;> simp [mapInsert, mapGet, h, ih]

theorem mapGet_mapInsert_ne {k1 k : K} (h : k1 ≠ k) (w : Value V)
    (m : List (K × Value V)) :
    mapGet k1 (mapInsert k w m) = mapGet k1 m := by
  induction m with
  | nil => simp [mapInsert, mapGet, Ne.symm h]
  | cons p rest ih =>
      obtain ⟨k2, w2⟩ := p
      by_cases h2 : k2 = k
      · subst h2
        simp [mapInsert, mapGet, Ne.symm h]
      · simp [mapInsert, mapGet, h2, ih]

theorem mapInsert_of_get_none {k : K} {m : List (K × Value V)}
    (h : mapGet k m = none) (w : Value V) : mapInsert k w m = m ++ [(k, w)] := by
  induction m with
  | nil => rfl
  | cons p rest ih =>
      obtain ⟨k1, w1⟩ := p
      by_cases h1 : k1 = k
      · simp [mapGet, h1] at h
      · simp [mapGet, h1] at h
        simp [mapInsert, h1, ih h]

theorem keys_mapInsert_of_get_some {k : K} {m : List (K × Value V)} {w0 : Value V}
    (h : mapGet k m = some w0) (w : Value V) :
    (mapInsert k w m).map Prod.fst = m.map Prod.fst := by
  induction m with
  | nil => simp [mapGet] at h
  | cons p rest ih =>
      obtain ⟨k1, w1⟩ := p
      by_cases h1 : k1 = k
      · simp [mapInsert, h1]
      · simp [mapGet, h1] at h
        simp [mapInsert, h1, ih h]

theorem length_mapInsert_of_get_some {k : K} {m : List (K × Value V)} {w0 : Value V}
    (h : mapGet k m = some w0) (w : Value V) :
    (mapInsert k w m).length = m.length := by
  have := keys_mapInsert_of_get_some h w (V := V)
  have h1 : ((mapInsert k w m).map Prod.fst).length = (m.map Prod.fst).length := by
    rw [this]
  simpa using h1

theorem mapGet_eq_none_iff {k : K} {m : List (K × Value V)} :
    mapGet k m = none ↔ k ∉ m.map Prod.fst := by
  induction m with
  | nil => simp [mapGet]
  | cons p rest ih =>
      obtain ⟨k1, w1⟩ := p
      by_cases h1 : k1 = k
      · subst h1
        simp [mapGet]
      · simp [mapGet, h1, ih, Ne.symm h1]

theorem mapGet_isSome_of_mem_keys {k : K} {m : List (K × Value V)}
    (h : k ∈ m.map Prod.fst) : ∃ w, mapGet k m = some w := by
  rcases h1 : mapGet k m with _ | w
  · exact absurd (mapGet_eq_none_iff.mp h1) (not_not_intro h)
  · exact ⟨w, rfl⟩

theorem mem_keys_of_mapGet_some {k : K} {m : List (K × Value V)} {w : Value V}
    (h : mapGet k m = some w) : k ∈ m.map Prod.fst := by
  by_contra h1
  rw [mapGet_eq_none_iff.mpr h1] at h
  cases h

theorem mapGet_mapRemove_ne {k1 k : K} (h : k1 ≠ k) (m : List (K × Value V)) :
    mapGet k1 (mapRemove k m) = mapGet k1 m := by
  induction m with
  | nil => rfl
  | cons p rest ih =>
      obtain ⟨k2, w2⟩ := p
      by_cases h2 : k2 = k
      · subst h2
        simp [mapRemove, mapGet, Ne.symm h]
      · simp [mapRemove, mapGet, h2, ih]

theorem keys_mapRemove_sublist (k : K) (m : List (K × Value V)) :
    ((mapRemove k m).map Prod.fst).Sublist (m.map Prod.fst) := by
  induction m with
  | nil => simp [mapRemove]
  | cons p rest ih =>
      obtain ⟨k1, w1⟩ := p
      by_cases h1 : k1 = k
      · simpa [mapRemove, h1] using List.sublist_cons_self k1 (rest.map Prod.fst)
      · simpa [mapRemove, h1] using ih.cons₂ k1

theorem mapGet_mapRemove_self {k : K} {m : List (K × Value V)}
    (hnd : (m.map Prod.fst).Nodup) : mapGet k (mapRemove k m) = none := by
  induction m with
  | nil => rfl
  | cons p rest ih =>
      obtain ⟨k1, w1⟩ := p
      simp only [List.map_cons, List.nodup_cons] at hnd
      by_cases h1 : k1 = k
      · subst h1
        rw [mapRemove, if_pos rfl, mapGet_eq_none_iff]
        exact hnd.1
      · rw [mapRemove, if_neg h1, mapGet, if_neg h1]
        exact ih hnd.2

theorem length_mapRemove_of_get_some {k : K} {m : List (K × Value V)} {w : Value V}
    (h : mapGet k m = some w) : (mapRemove k m).length + 1 = m.length := by
  induction m with
  | nil => simp [mapGet] at h
  | cons p rest ih =>
      obtain ⟨k1, w1⟩ := p
      by_cases h1 : k1 = k
      · simp [mapRemove, h1]
      · simp [mapGet, h1] at h
        simp [mapRemove, h1, ih h]

theorem qremove_sublist (k : K) (q : List K) : (qremove k q).Sublist q := by
  induction q with
  | nil => simp [qremove]
  | cons x xs ih =>
      by_cases h : x = k
      · simpa [qremove, h] using List.sublist_cons_self x xs
      · simpa [qremove, h] using ih.cons₂ x

theorem perm_cons_qremove {k : K} {q : List K} (h : k ∈ q) :
    q.Perm (k :: qremove k q) := by
  induction q with
  | nil => cases h
  | cons x xs ih =>
      by_cases h1 : x = k
      · subst h1
        simp [qremove]
      · have h2 : k ∈ xs := by
          rcases List.mem_cons.mp h with h2 | h2
          · exact absurd h2.symm h1
          · exact h2
        have e : qremove k (x :: xs) = x :: qremove k xs := by simp [qremove, h1]
        rw [e]
        exact ((ih h2).cons x).trans (List.Perm.swap k x _)

theorem mem_qremove_of_ne {x k : K} (h : x ≠ k) (q : List K) :
    x ∈ qremove k q ↔ x ∈ q := by
  induction q with
  | nil => simp [qremove]
  | cons y ys ih =>
      by_cases h1 : y = k
      · subst h1
        simp [qremove, h]
      · simp [qremove, h1, ih]

theorem incr_freq_here {f : Nat} {k : K} {q : List K} (hk : k ∈ q)
    (rest : List (Nat × List K)) :
    incr_freq f k ((f, q) :: rest) =
      some ((if qremove k q = [] then insTarget f k rest
             else (f, qremove k q) :: insTarget f k rest), f + 1) := by
  simp [incr_freq, hk]

theorem incr_freq_cons_ne {f0 f : Nat} (h : ¬f = f0) (k : K) (q : List K)
    (rest : List (Nat × List K)) :
    incr_freq f0 k ((f, q) :: rest) =
      (incr_freq f0 k rest).map (fun p => ((f, q) :: p.1, p.2)) := by
  cases h1 : incr_freq f0 k rest with
  | none => simp [incr_freq, h, h1]
  | some p =>
      obtain ⟨fq1, r⟩ := p
      simp [incr_freq, h, h1]

theorem incr_freq_split {f : Nat} {k : K} {q : List K}
    (pre rest : List (Nat × List K))
    (hpre : ∀ b ∈ pre, b.1 ≠ f) (hk : k ∈ q) :
    incr_freq f k (pre ++ (f, q) :: rest) =
      some (pre ++ (if qremove k q = [] then insTarget f k rest
              else (f, qremove k q) :: insTarget f k rest), f + 1) := by
  induction pre with
  | nil => simpa using incr_freq_here hk rest
  | cons b pre1 ih =>
      obtain ⟨fb, qb⟩ := b
      have hfb : ¬fb = f := hpre (fb, qb) (List.mem_cons_self _ _)
      have ih1 := ih fun b hb => hpre b (List.mem_cons_of_mem _ hb)
      rw [List.cons_append, incr_freq_cons_ne hfb, ih1]
      rfl

theorem insTarget_keys_perm (f : Nat) (k : K) (rest : List (Nat × List K)) :
    (ledgerKeys (insTarget f k rest)).Perm (k :: ledgerKeys rest) := by
  cases rest with
  | nil => simp [insTarget, ledgerKeys]
  | cons b rest1 =>
      obtain ⟨f2, q2⟩ := b
      by_cases h : f2 = f + 1
      · have e : ledgerKeys ((f2, q2 ++ [k]) :: rest1) =
            q2 ++ k :: ledgerKeys rest1 := by simp [ledgerKeys]
        simp only [insTarget, if_pos h, e, ledgerKeys]
        exact List.perm_middle
      · simp [insTarget, h, ledgerKeys]

theorem insTarget_sorted {f : Nat} (k : K) {rest : List (Nat × List K)}
    (hs : List.Pairwise (· < ·) (rest.map Prod.fst))
    (hgt : ∀ b ∈ rest, f < b.1) :
    List.Pairwise (· < ·) ((insTarget f k rest).map Prod.fst) := by
  cases rest with
  | nil => simp [insTarget]
  | cons b rest1 =>
      obtain ⟨f2, q2⟩ := b
      simp only [List.map_cons, List.pairwise_cons] at hs
      by_cases h : f2 = f + 1
      · simp only [insTarget, if_pos h, List.map_cons, List.pairwise_cons]
        exact ⟨hs.1, hs.2⟩
      · have h2 : f < f2 := hgt (f2, q2) (List.mem_cons_self _ _)
        simp only [insTarget, if_neg h, List.map_cons, List.pairwise_cons]
        refine ⟨?_, hs.1, hs.2⟩
        intro a ha
        rcases List.mem_cons.mp ha with ha | ha
        · subst ha
          omega
        · have h3 := hs.1 a ha
          omega

theorem insTarget_gt {f : Nat} (k : K) {rest : List (Nat × List K)}
    (hgt : ∀ b ∈ rest, f < b.1) :
    ∀ b ∈ insTarget f k rest, f < b.1 := by
  cases rest with
  | nil =>
      intro b hb
      simp only [insTarget, List.mem_singleton] at hb
      rw [hb]
      omega
  | cons b0 rest1 =>
      obtain ⟨f2, q2⟩ := b0
      by_cases h : f2 = f + 1
      · simp only [insTarget, if_pos h]
        intro b hb
        rcases List.mem_cons.mp hb with hb | hb
        · rw [hb]
          exact hgt (f2, q2) (List.mem_cons_self _ _)
        · exact hgt b (List.mem_cons_of_mem _ hb)
      · simp only [insTarget, if_neg h]
        intro b hb
        rcases List.mem_cons.mp hb with hb | hb
        · rw [hb]
          omega
        · exact hgt b hb

theorem insTarget_nonem {f : Nat} (k : K) {rest : List (Nat × List K)}
    (hne : ∀ b ∈ rest, b.2 ≠ []) :
    ∀ b ∈ insTarget f k rest, b.2 ≠ [] := by
  cases rest with
  | nil =>
      intro b hb
      simp only [insTarget, List.mem_singleton] at hb
      rw [hb]
      simp
  | cons b0 rest1 =>
      obtain ⟨f2, q2⟩ := b0
      by_cases h : f2 = f + 1
      · simp only [insTarget, if_pos h]
        intro b hb
        rcases List.mem_cons.mp hb with hb | hb
        · rw [hb]
          simp
        · exact hne b (List.mem_cons_of_mem _ hb)
      · simp only [insTarget, if_neg h]
        intro b hb
        rcases List.mem_cons.mp hb with hb | hb
        · rw [hb]
          simp
        · exact hne b hb

theorem insTarget_self_mem (f : Nat) (k : K) (rest : List (Nat × List K)) :
    ∃ q1, (f + 1, q1) ∈ insTarget f k rest ∧ k ∈ q1 := by
  cases rest with
  | nil => exact ⟨[k], by simp [insTarget], by simp⟩
  | cons b0 rest1 =>
      obtain ⟨f2, q2⟩ := b0
      by_cases h : f2 = f + 1
      · subst h
        exact ⟨q2 ++ [k], by simp [insTarget], by simp⟩
      · exact ⟨[k], by simp [insTarget, h], by simp⟩

theorem insTarget_mem_of {f : Nat} {k : K} {rest : List (Nat × List K)}
    {fb : Nat} {qb : List K} {k1 : K}
    (hb : (fb, qb) ∈ rest) (hk1 : k1 ∈ qb) :
    ∃ q1, (fb, q1) ∈ insTarget f k rest ∧ k1 ∈ q1 := by
  cases rest with
  | nil => cases hb
  | cons b0 rest1 =>
      obtain ⟨f2, q2⟩ := b0
      by_cases h : f2 = f + 1
      · rcases List.mem_cons.mp hb with hb | hb
        · injection hb with e1 e2
          subst e1
          subst e2
          refine ⟨qb ++ [k], ?_, by simp [hk1]⟩
          simp [insTarget, h]
        · refine ⟨qb, ?_, hk1⟩
          simp only [insTarget, if_pos h]
          exact List.mem_cons_of_mem _ hb
      · refine ⟨qb, ?_, hk1⟩
        simp only [insTarget, if_neg h]
        exact List.mem_cons_of_mem _ hb

theorem freqs_nodup {c : LfuCache K V} (hwf : WF c) :
    (c.frequencies.map Prod.fst).Nodup :=
  hwf.sorted.imp ne_of_lt

theorem bucket_unique {fq : List (Nat × List K)}
    (hnd : (fq.map Prod.fst).Nodup) {f : Nat} {q1 q2 : List K}
    (h1 : (f, q1) ∈ fq) (h2 : (f, q2) ∈ fq) : q1 = q2 := by
  induction fq with
  | nil => cases h1
  | cons b rest ih =>
      obtain ⟨fb, qb⟩ := b
      simp only [List.map_cons, List.nodup_cons] at hnd
      rcases List.mem_cons.mp h1 with h1 | h1 <;>
        rcases List.mem_cons.mp h2 with h2 | h2
      · injection h1 with ef1 eq1
        injection h2 with ef2 eq2
        rw [eq1, eq2]
      · injection h1 with ef1 eq1
        exfalso
        apply hnd.1
        rw [← ef1]
        exact List.mem_map_of_mem Prod.fst h2
      · injection h2 with ef2 eq2
        exfalso
        apply hnd.1
        rw [← ef2]
        exact List.mem_map_of_mem Prod.fst h1
      · exact ih hnd.2 h1 h2

theorem sorted_split_facts {pre rest : List (Nat × List K)} {f : Nat} {q : List K}
    (hs : List.Pairwise (· < ·) ((pre ++ (f, q) :: rest).map Prod.fst)) :
    List.Pairwise (· < ·) (pre.map Prod.fst) ∧
      List.Pairwise (· < ·) (rest.map Prod.fst) ∧
      (∀ b ∈ pre, b.1 < f) ∧ (∀ b ∈ rest, f < b.1) := by
  rw [List.map_append, List.pairwise_append] at hs
  obtain ⟨h1, h2, h3⟩ := hs
  rw [List.map_cons, List.pairwise_cons] at h2
  refine ⟨h1, h2.2, ?_, ?_⟩
  · intro b hb
    exact h3 b.1 (List.mem_map_of_mem _ hb) f (by simp)
  · intro b hb
    exact h2.1 b.1 (List.mem_map_of_mem _ hb)

theorem mem_promoted_mid {f : Nat} {k : K} {q : List K} {rest : List (Nat × List K)}
    {b : Nat × List K}
    (hb : b ∈ (if qremove k q = [] then insTarget f k rest
               else (f, qremove k q) :: insTarget f k rest)) :
    (b = (f, qremove k q) ∧ qremove k q ≠ []) ∨ b ∈ insTarget f k rest := by
  by_cases he : qremove k q = []
  · rw [if_pos he] at hb
    exact Or.inr hb
  · rw [if_neg he] at hb
    rcases List.mem_cons.mp hb with hb | hb
    · exact Or.inl ⟨hb, he⟩
    · exact Or.inr hb

theorem insTarget_subset_mid {f : Nat} {k : K} {q : List K}
    {rest : List (Nat × List K)} {b : Nat × List K}
    (hb : b ∈ insTarget f k rest) :
    b ∈ (if qremove k q = [] then insTarget f k rest
         else (f, qremove k q) :: insTarget f k rest) := by
  by_cases he : qremove k q = []
  · rw [if_pos he]
    exact hb
  · rw [if_neg he]
    exact List.mem_cons_of_mem _ hb

theorem promoted_keys_perm {f : Nat} {k : K} {q : List K} (hk : k ∈ q)
    (pre rest : List (Nat × List K)) :
    (ledgerKeys (pre ++ (if qremove k q = [] then insTarget f k rest
        else (f, qremove k q) :: insTarget f k rest))).Perm
      (ledgerKeys (pre ++ (f, q) :: rest)) := by
  rw [ledgerKeys_append, ledgerKeys_append]
  apply List.Perm.append_left
  have hq : q.Perm (k :: qremove k q) := perm_cons_qremove hk
  have hmid : ledgerKeys ((f, q) :: rest) = q ++ ledgerKeys rest := rfl
  rw [hmid]
  by_cases he : qremove k q = []
  · rw [if_pos he]
    rw [he] at hq
    have h2 : (ledgerKeys (insTarget f k rest)).Perm (k :: ledgerKeys rest) :=
      insTarget_keys_perm f k rest
    have h3 : ((k :: ([] : List K)) ++ ledgerKeys rest).Perm (q ++ ledgerKeys rest) :=
      (hq.append_right _).symm
    exact h2.trans h3
  · rw [if_neg he]
    have h1 : ledgerKeys ((f, qremove k q) :: insTarget f k rest) =
        qremove k q ++ ledgerKeys (insTarget f k rest) := rfl
    rw [h1]
    have h2 : (qremove k q ++ ledgerKeys (insTarget f k rest)).Perm
        (qremove k q ++ (k :: ledgerKeys rest)) :=
      List.Perm.append_left _ (insTarget_keys_perm f k rest)
    have h3 : (qremove k q ++ k :: ledgerKeys rest).Perm
        (k :: (qremove k q ++ ledgerKeys rest)) := List.perm_middle
    have h4 : ((k :: qremove k q) ++ ledgerKeys rest).Perm (q ++ ledgerKeys rest) :=
      (hq.append_right _).symm
    exact h2.trans (h3.trans h4)

theorem promoted_sorted {pre rest : List (Nat × List K)} {f : Nat} {q : List K}
    (k : K)
    (hs : List.Pairwise (· < ·) ((pre ++ (f, q) :: rest).map Prod.fst)) :
    List.Pairwise (· < ·)
      ((pre ++ (if qremove k q = [] then insTarget f k rest
                else (f, qremove k q) :: insTarget f k rest)).map Prod.fst) := by
  obtain ⟨hp, hr, hpf, hrf⟩ := sorted_split_facts hs
  have hTs := insTarget_sorted k hr hrf
  have hTg := insTarget_gt k hrf
  rw [List.map_append, List.pairwise_append]
  refine ⟨hp, ?_, ?_⟩
  · by_cases he : qremove k q = []
    · rw [if_pos he]
      exact hTs
    · rw [if_neg he]
      rw [List.map_cons, List.pairwise_cons]
      refine ⟨?_, hTs⟩
      intro a ha
      obtain ⟨b, hb, rfl⟩ := List.mem_map.mp ha
      exact hTg b hb
  · intro a ha b hb
    obtain ⟨ba, hba, rfl⟩ := List.mem_map.mp ha
    have h1 : ba.1 < f := hpf ba hba
    obtain ⟨bb, hbb, rfl⟩ := List.mem_map.mp hb
    rcases mem_promoted_mid hbb with ⟨e, _⟩ | hbb
    · rw [e]
      exact h1
    · have h2 := hTg bb hbb
      omega

theorem ledger_key_unique {fq : List (Nat × List K)}
    (hnd : (ledgerKeys fq).Nodup) {k : K} {b1 b2 : Nat × List K}
    (hb1 : b1 ∈ fq) (hk1 : k ∈ b1.2) (hb2 : b2 ∈ fq) (hk2 : k ∈ b2.2) :
    b1 = b2 := by
  induction fq with
  | nil => cases hb1
  | cons b rest ih =>
      rw [ledgerKeys, List.nodup_append] at hnd
      rcases List.mem_cons.mp hb1 with h1 | h1 <;>
        rcases List.mem_cons.mp hb2 with h2 | h2
      · rw [h1, h2]
      · exfalso
        exact hnd.2.2 (h1 ▸ hk1) (mem_ledgerKeys.mpr ⟨b2, h2, hk2⟩)
      · exfalso
        exact hnd.2.2 (h2 ▸ hk2) (mem_ledgerKeys.mpr ⟨b1, h1, hk1⟩)
      · exact ih hnd.2.1 h1 h2

theorem wf_split {c : LfuCache K V} (hwf : WF c) {k : K} {w : Value V}
    (hget : mapGet k c.map = some w) :
    ∃ pre q rest, c.frequencies = pre ++ (w.hfreq, q) :: rest ∧ k ∈ q ∧
      ∀ b ∈ pre, b.1 ≠ w.hfreq := by
  obtain ⟨q, hq, hkq⟩ := hwf.inLedger k w hget
  obtain ⟨pre, rest, hsplit⟩ := List.append_of_mem hq
  refine ⟨pre, q, rest, hsplit, hkq, ?_⟩
  have hnd := freqs_nodup hwf
  rw [hsplit, List.map_append, List.nodup_append] at hnd
  intro b hb he
  exact hnd.2.2 (List.mem_map_of_mem Prod.fst hb) (by rw [he]; simp)

theorem promote_wf {c : LfuCache K V} (hwf : WF c) {k : K} {w : Value V}
    (hget : mapGet k c.map = some w) (v : V)
    {pre rest : List (Nat × List K)} {q : List K}
    (hsplit : c.frequencies = pre ++ (w.hfreq, q) :: rest) (hk : k ∈ q) :
    WF { map := mapInsert k ⟨v, w.hfreq + 1⟩ c.map,
         frequencies := pre ++ (if qremove k q = [] then insTarget w.hfreq k rest
             else (w.hfreq, qremove k q) :: insTarget w.hfreq k rest),
         capacity := c.capacity } := by
  have hperm := promoted_keys_perm (f := w.hfreq) hk pre rest
  have hfin : (w.hfreq, q) ∈ c.frequencies := by
    rw [hsplit]
    exact List.mem_append_right _ (List.mem_cons_self _ _)
  have hf1 : 1 ≤ w.hfreq := hwf.onePos _ hfin
  have hrest_sub : ∀ b ∈ rest, b ∈ c.frequencies := by
    intro b hb
    rw [hsplit]
    exact List.mem_append_right _ (List.mem_cons_of_mem _ hb)
  have hpre_sub : ∀ b ∈ pre, b ∈ c.frequencies := by
    intro b hb
    rw [hsplit]
    exact List.mem_append_left _ hb
  have hs0 := hwf.sorted
  rw [hsplit] at hs0
  have hrf : ∀ b ∈ rest, w.hfreq < b.1 := (sorted_split_facts hs0).2.2.2
  have hknd := hwf.keysNodup
  rw [hsplit] at hknd
  refine ⟨?_, ?_, ?_, ?_, ?_, ?_, ?_, ?_⟩
  · exact promoted_sorted k hs0
  · intro b hb
    rcases List.mem_append.mp hb with hb | hb
    · exact hwf.onePos b (hpre_sub b hb)
    · rcases mem_promoted_mid hb with ⟨e, _⟩ | hb
      · rw [e]
        exact hf1
      · have h2 := insTarget_gt k hrf b hb
        omega
  · intro b hb
    rcases List.mem_append.mp hb with hb | hb
    · exact hwf.nonem b (hpre_sub b hb)
    · rcases mem_promoted_mid hb with ⟨e, hne⟩ | hb
      · rw [e]
        exact hne
      · exact insTarget_nonem k (fun b1 hb1 => hwf.nonem b1 (hrest_sub b1 hb1)) b hb
  · exact hperm.nodup_iff.mpr hknd
  · show (List.map Prod.fst (mapInsert k ⟨v, w.hfreq + 1⟩ c.map)).Nodup
    rw [keys_mapInsert_of_get_some hget]
    exact hwf.mapNodup
  · intro k1 w1 hg1
    by_cases hk1 : k1 = k
    · subst hk1
      rw [show mapGet k1 (mapInsert k1 ⟨v, w.hfreq + 1⟩ c.map) =
            some ⟨v, w.hfreq + 1⟩ from mapGet_mapInsert_self k1 _ c.map] at hg1
      injection hg1 with e
      subst e
      obtain ⟨q1, hq1, hkq1⟩ := insTarget_self_mem w.hfreq k1 rest
      exact ⟨q1, List.mem_append_right _ (insTarget_subset_mid hq1), hkq1⟩
    · rw [mapGet_mapInsert_ne hk1] at hg1
      obtain ⟨qb, hqb, hk1qb⟩ := hwf.inLedger k1 w1 hg1
      rw [hsplit] at hqb
      rcases List.mem_append.mp hqb with hqb | hqb
      · exact ⟨qb, List.mem_append_left _ hqb, hk1qb⟩
      · rcases List.mem_cons.mp hqb with hqb | hqb
        · injection hqb with e1 e2
          have hk1q : k1 ∈ qremove k q :=
            (mem_qremove_of_ne hk1 q).mpr (e2 ▸ hk1qb)
          have hne : qremove k q ≠ [] := by
            intro h0
            rw [h0] at hk1q
            cases hk1q
          refine ⟨qremove k q, ?_, hk1q⟩
          rw [e1]
          refine List.mem_append_right _ ?_
          rw [if_neg hne]
          exact List.mem_cons_self _ _
        · obtain ⟨q1, hq1, hkq1⟩ := insTarget_mem_of hqb hk1qb
          exact ⟨q1, List.mem_append_right _ (insTarget_subset_mid hq1), hkq1⟩
  · intro k1 hk1
    have hmem : k1 ∈ ledgerKeys (pre ++ (w.hfreq, q) :: rest) := hperm.mem_iff.mp hk1
    rw [← hsplit] at hmem
    by_cases he : k1 = k
    · subst he
      exact ⟨⟨v, w.hfreq + 1⟩, mapGet_mapInsert_self k1 _ c.map⟩
    · obtain ⟨w1, hw1⟩ := hwf.inMap k1 hmem
      refine ⟨w1, ?_⟩
      rw [mapGet_mapInsert_ne he]
      exact hw1
  · show (mapInsert k ⟨v, w.hfreq + 1⟩ c.map).length ≤ c.capacity
    rw [length_mapInsert_of_get_some hget]
    exact hwf.sizeLe

theorem mapInsert_none_nodup {k : K} {m : List (K × Value V)}
    (hnd : (m.map Prod.fst).Nodup) (hget : mapGet k m = none) (w : Value V) :
    ((mapInsert k w m).map Prod.fst).Nodup := by
  rw [mapInsert_of_get_none hget, List.map_append, List.nodup_append]
  refine ⟨hnd, by simp, ?_⟩
  intro a ha
  simp only [List.map_cons, List.map_nil, List.mem_singleton]
  intro he
  exact (mapGet_eq_none_iff.mp hget) (he ▸ ha)

theorem length_mapInsert_of_get_none {k : K} {m : List (K × Value V)}
    (hget : mapGet k m = none) (w : Value V) :
    (mapInsert k w m).length = m.length + 1 := by
  rw [mapInsert_of_get_none hget]
  simp

theorem pushFreq1_wf {L : List (Nat × List K)} {m : List (K × Value V)} {n : Nat}
    {k : K} (v : V)
    (hs : List.Pairwise (· < ·) (L.map Prod.fst))
    (h1 : ∀ b ∈ L, 1 ≤ b.1)
    (hC : ∀ b ∈ L, b.2 = [] → b.1 = 1)
    (hD : (ledgerKeys L).Nodup)
    (hE : (m.map Prod.fst).Nodup)
    (hF : ∀ k1 w1, mapGet k1 m = some w1 → ∃ q1, (w1.hfreq, q1) ∈ L ∧ k1 ∈ q1)
    (hG : ∀ k1 ∈ ledgerKeys L, ∃ w1, mapGet k1 m = some w1)
    (hH : m.length < n)
    (hkm : mapGet k m = none) :
    ∃ fq1, pushFreq1 k L = some fq1 ∧
      WF { map := mapInsert k ⟨v, 1⟩ m, frequencies := fq1, capacity := n } := by
  have hkfq : k ∉ ledgerKeys L := by
    intro hmem
    obtain ⟨w1, hw1⟩ := hG k hmem
    rw [hkm] at hw1
    cases hw1
  cases L with
  | nil =>
      refine ⟨[(1, [k])], by simp [pushFreq1], ?_, ?_, ?_, ?_, ?_, ?_, ?_, ?_⟩
      · simp
      · simp
      · simp
      · simp [ledgerKeys]
      · exact mapInsert_none_nodup hE hkm _
      · intro k1 w1 hg1
        by_cases he : k1 = k
        · subst he
          rw [mapGet_mapInsert_self] at hg1
          injection hg1 with e
          subst e
          exact ⟨[k1], by simp, by simp⟩
        · rw [mapGet_mapInsert_ne he] at hg1
          obtain ⟨q1, hq1, _⟩ := hF k1 w1 hg1
          cases hq1
      · intro k1 hk1
        have : k1 = k := by simpa [ledgerKeys] using hk1
        subst this
        exact ⟨⟨v, 1⟩, mapGet_mapInsert_self _ _ _⟩
      · show (mapInsert k ⟨v, 1⟩ m).length ≤ n
        rw [length_mapInsert_of_get_none hkm]
        omega
  | cons b rest =>
      obtain ⟨fh, qh⟩ := b
      have hrest_ge : ∀ b1 ∈ rest, fh < b1.1 := by
        have hs1 := hs
        rw [List.map_cons, List.pairwise_cons] at hs1
        intro b1 hb1
        exact hs1.1 b1.1 (List.mem_map_of_mem _ hb1)
      have hfh1 : 1 ≤ fh := h1 (fh, qh) (List.mem_cons_self _ _)
      by_cases hf : fh = 1
      · subst hf
        refine ⟨(1, qh ++ [k]) :: rest, by simp [pushFreq1], ?_⟩
        have hperm : (ledgerKeys ((1, qh ++ [k]) :: rest)).Perm
            (k :: ledgerKeys ((1, qh) :: rest)) := by
          have e1 : ledgerKeys ((1, qh ++ [k]) :: rest) =
              qh ++ (k :: ledgerKeys rest) := by simp [ledgerKeys]
          rw [e1]
          exact List.perm_middle
        refine ⟨?_, ?_, ?_, ?_, ?_, ?_, ?_, ?_⟩
        · exact hs
        · intro b hb
          rcases List.mem_cons.mp hb with hb | hb
          · rw [hb]
          · exact h1 b (List.mem_cons_of_mem _ hb)
        · intro b hb
          rcases List.mem_cons.mp hb with hb | hb
          · rw [hb]
            simp
          · intro hemp
            have h2 := hC b (List.mem_cons_of_mem _ hb) hemp
            have h3 := hrest_ge b hb
            omega
        · exact hperm.nodup_iff.mpr (List.nodup_cons.mpr ⟨hkfq, hD⟩)
        · exact mapInsert_none_nodup hE hkm _
        · intro k1 w1 hg1
          by_cases he : k1 = k
          · subst he
            rw [mapGet_mapInsert_self] at hg1
            injection hg1 with e
            subst e
            exact ⟨qh ++ [k1], List.mem_cons_self _ _, by simp⟩
          · rw [mapGet_mapInsert_ne he] at hg1
            obtain ⟨q1, hq1, hk1q⟩ := hF k1 w1 hg1
            rcases List.mem_cons.mp hq1 with hq1 | hq1
            · injection hq1 with e1 e2
              refine ⟨qh ++ [k], ?_, List.mem_append_left _ (e2 ▸ hk1q)⟩
              rw [e1]
              exact List.mem_cons_self _ _
            · exact ⟨q1, List.mem_cons_of_mem _ hq1, hk1q⟩
        · intro k1 hk1
          rcases List.mem_cons.mp (hperm.mem_iff.mp hk1) with he | hold
          · subst he
            exact ⟨⟨v, 1⟩, mapGet_mapInsert_self _ _ _⟩
          · obtain ⟨w1, hw1⟩ := hG k1 hold
            have hne : k1 ≠ k := by
              intro he
              exact hkfq (he ▸ hold)
            refine ⟨w1, ?_⟩
            rw [mapGet_mapInsert_ne hne]
            exact hw1
        · show (mapInsert k ⟨v, 1⟩ m).length ≤ n
          rw [length_mapInsert_of_get_none hkm]
          omega
      · refine ⟨(1, [k]) :: (fh, qh) :: rest, by simp [pushFreq1, hf], ?_⟩
        refine ⟨?_, ?_, ?_, ?_, ?_, ?_, ?_, ?_⟩
        · rw [List.map_cons, List.pairwise_cons]
          refine ⟨?_, hs⟩
          intro a ha
          rw [List.map_cons] at ha
          rcases List.mem_cons.mp ha with ha | ha
          · subst ha
            omega
          · obtain ⟨b1, hb1, rfl⟩ := List.mem_map.mp ha
            have := hrest_ge b1 hb1
            omega
        · intro b hb
          rcases List.mem_cons.mp hb with hb | hb
          · rw [hb]
          · exact h1 b hb
        · intro b hb
          rcases List.mem_cons.mp hb with hb | hb
          · rw [hb]
            simp
          · rcases List.mem_cons.mp hb with hb | hb
            · rw [hb]
              intro hemp
              exact hf (hC (fh, qh) (List.mem_cons_self _ _) hemp)
            · intro hemp
              have h2 := hC b (List.mem_cons_of_mem _ hb) hemp
              have h3 := hrest_ge b hb
              omega
        · exact List.nodup_cons.mpr ⟨hkfq, hD⟩
        · exact mapInsert_none_nodup hE hkm _
        · intro k1 w1 hg1
          by_cases he : k1 = k
          · subst he
            rw [mapGet_mapInsert_self] at hg1
            injection hg1 with e
            subst e
            exact ⟨[k1], List.mem_cons_self _ _, by simp⟩
          · rw [mapGet_mapInsert_ne he] at hg1
            obtain ⟨q1, hq1, hk1q⟩ := hF k1 w1 hg1
            exact ⟨q1, List.mem_cons_of_mem _ hq1, hk1q⟩
        · intro k1 hk1
          rcases List.mem_cons.mp hk1 with he | hold
          · subst he
            exact ⟨⟨v, 1⟩, mapGet_mapInsert_self _ _ _⟩
          · obtain ⟨w1, hw1⟩ := hG k1 hold
            have hne : k1 ≠ k := by
              intro he
              exact hkfq (he ▸ hold)
            refine ⟨w1, ?_⟩
            rw [mapGet_mapInsert_ne hne]
            exact hw1
        · show (mapInsert k ⟨v, 1⟩ m).length ≤ n
          rw [length_mapInsert_of_get_none hkm]
          omega

theorem map_nonempty_of_get_some {k : K} {m : List (K × Value V)} {w : Value V}
    (hget : mapGet k m = some w) : 0 < m.length := by
  cases m with
  | nil => cases hget
  | cons p rest => simp

theorem cap_pos_of_get_some {c : LfuCache K V} (hwf : WF c) {k : K} {w : Value V}
    (hget : mapGet k c.map = some w) : ¬c.capacity = 0 := by
  have h1 := map_nonempty_of_get_some hget
  have h2 := hwf.sizeLe
  omega

theorem insert_existing_spec {c : LfuCache K V} (hwf : WF c) {k : K} {w : Value V}
    (hget : mapGet k c.map = some w) (v : V) :
    ∃ fq1,
      c.insert k v = some { map := mapInsert k ⟨v, w.hfreq + 1⟩ c.map,
                            frequencies := fq1, capacity := c.capacity } ∧
      WF { map := mapInsert k ⟨v, w.hfreq + 1⟩ c.map,
           frequencies := fq1, capacity := c.capacity } := by
  have hcap := cap_pos_of_get_some hwf hget
  obtain ⟨pre, q, rest, hsplit, hk, hpre⟩ := wf_split hwf hget
  have hif := incr_freq_split (f := w.hfreq) pre rest hpre hk
  refine ⟨_, ?_, promote_wf hwf hget v hsplit hk⟩
  simp only [LfuCache.insert, if_neg hcap, hget, hsplit, hif]

theorem get_hit_spec {c : LfuCache K V} (hwf : WF c) {k : K} {w : Value V}
    (hget : mapGet k c.map = some w) :
    ∃ fq1,
      c.get k = some (some w.value,
        { map := mapInsert k ⟨w.value, w.hfreq + 1⟩ c.map,
          frequencies := fq1, capacity := c.capacity }) ∧
      WF { map := mapInsert k ⟨w.value, w.hfreq + 1⟩ c.map,
           frequencies := fq1, capacity := c.capacity } := by
  obtain ⟨pre, q, rest, hsplit, hk, hpre⟩ := wf_split hwf hget
  have hif := incr_freq_split (f := w.hfreq) pre rest hpre hk
  refine ⟨_, ?_, promote_wf hwf hget w.value hsplit hk⟩
  simp only [LfuCache.get, hget, hsplit, hif]

theorem get_miss_spec {c : LfuCache K V} {k : K}
    (hget : mapGet k c.map = none) : c.get k = some (none, c) := by
  simp only [LfuCache.get, hget]

theorem head_split_of_nonempty {c : LfuCache K V} (hwf : WF c) (hne : c.map ≠ []) :
    ∃ f e qt rest, c.frequencies = (f, e :: qt) :: rest := by
  cases hm : c.map with
  | nil => exact absurd hm hne
  | cons p m1 =>
      obtain ⟨k0, w0⟩ := p
      have hg : mapGet k0 c.map = some w0 := by
        rw [hm]
        simp [mapGet]
      obtain ⟨q0, hq0, _⟩ := hwf.inLedger k0 w0 hg
      cases hfq : c.frequencies with
      | nil =>
          rw [hfq] at hq0
          cases hq0
      | cons b rest =>
          obtain ⟨f, q⟩ := b
          have hq_ne : q ≠ [] := by
            refine hwf.nonem (f, q) ?_
            rw [hfq]
            exact List.mem_cons_self _ _
          cases q with
          | nil => exact absurd rfl hq_ne
          | cons e qt => exact ⟨f, e, qt, rest, rfl⟩

theorem insert_new_notfull_spec {c : LfuCache K V} (hwf : WF c) {k : K}
    (hget : mapGet k c.map = none) (hcap : ¬c.capacity = 0)
    (hnotfull : ¬c.capacity ≤ c.map.length) (v : V) :
    ∃ fq1,
      pushFreq1 k c.frequencies = some fq1 ∧
      c.insert k v = some { map := mapInsert k ⟨v, 1⟩ c.map,
                            frequencies := fq1, capacity := c.capacity } ∧
      WF { map := mapInsert k ⟨v, 1⟩ c.map,
           frequencies := fq1, capacity := c.capacity } := by
  obtain ⟨fq1, hpush, hwf1⟩ :=
    pushFreq1_wf (k := k) (n := c.capacity) v hwf.sorted hwf.onePos
      (fun b hb hemp => absurd hemp (hwf.nonem b hb))
      hwf.keysNodup hwf.mapNodup hwf.inLedger hwf.inMap (by omega) hget
  refine ⟨fq1, hpush, ?_, hwf1⟩
  simp only [LfuCache.insert, if_neg hcap, hget, if_neg hnotfull, hpush]

theorem insert_new_full_spec {c : LfuCache K V} (hwf : WF c) {k : K}
    (hget : mapGet k c.map = none) (hcap : ¬c.capacity = 0)
    (hfull : c.capacity ≤ c.map.length)
    {f : Nat} {e : K} {qt : List K} {rest : List (Nat × List K)}
    (hsplit : c.frequencies = (f, e :: qt) :: rest) (v : V) :
    ∃ fq1,
      pushFreq1 k (if f ≠ 1 ∧ qt = [] then rest else (f, qt) :: rest) = some fq1 ∧
      c.insert k v = some { map := mapInsert k ⟨v, 1⟩ (mapRemove e c.map),
                            frequencies := fq1, capacity := c.capacity } ∧
      WF { map := mapInsert k ⟨v, 1⟩ (mapRemove e c.map),
           frequencies := fq1, capacity := c.capacity } := by
  have he_led : e ∈ ledgerKeys c.frequencies := by
    rw [hsplit]
    show e ∈ (e :: qt) ++ ledgerKeys rest
    exact List.mem_append_left _ (List.mem_cons_self _ _)
  obtain ⟨we, hwe⟩ := hwf.inMap e he_led
  have hke : k ≠ e := by
    intro h
    rw [h, hwe] at hget
    cases hget
  have hm1get : mapGet k (mapRemove e c.map) = none := by
    rw [mapGet_mapRemove_ne hke]
    exact hget
  have hm1nodup : ((mapRemove e c.map).map Prod.fst).Nodup :=
    List.Nodup.sublist (keys_mapRemove_sublist e c.map) hwf.mapNodup
  have hm1len : (mapRemove e c.map).length + 1 = c.map.length :=
    length_mapRemove_of_get_some hwe
  have hm1lt : (mapRemove e c.map).length < c.capacity := by
    have := hwf.sizeLe
    omega
  have hkeys : ledgerKeys c.frequencies = e :: (qt ++ ledgerKeys rest) := by
    rw [hsplit]
    rfl
  have hknd := hwf.keysNodup
  rw [hkeys, List.nodup_cons] at hknd
  have hs0 := hwf.sorted
  rw [hsplit, List.map_cons, List.pairwise_cons] at hs0
  have hrest_mem : ∀ b ∈ rest, b ∈ c.frequencies := by
    intro b hb
    rw [hsplit]
    exact List.mem_cons_of_mem _ hb
  have hhead_mem : (f, e :: qt) ∈ c.frequencies := by
    rw [hsplit]
    exact List.mem_cons_self _ _
  have hremove_ne : ∀ k1, k1 ≠ e →
      mapGet k1 (mapRemove e c.map) = mapGet k1 c.map := fun k1 h =>
    mapGet_mapRemove_ne h c.map
  have hm1_to_old : ∀ k1 w1, mapGet k1 (mapRemove e c.map) = some w1 →
      k1 ≠ e ∧ mapGet k1 c.map = some w1 := by
    intro k1 w1 hg1
    have hne : k1 ≠ e := by
      intro h
      rw [h, mapGet_mapRemove_self hwf.mapNodup] at hg1
      cases hg1
    rw [hremove_ne k1 hne] at hg1
    exact ⟨hne, hg1⟩
  by_cases hcond : f ≠ 1 ∧ qt = []
  · have hrl : remove_lfu ((f, e :: qt) :: rest) c.map =
        (rest, mapRemove e c.map) := by
      simp only [remove_lfu, if_pos hcond]
    have hDrest : (ledgerKeys rest).Nodup := by
      have := hknd.2
      rw [hcond.2] at this
      simpa using this
    obtain ⟨fq1, hpush, hwf1⟩ :=
      pushFreq1_wf (L := rest) (m := mapRemove e c.map)
        (k := k) (n := c.capacity) v hs0.2
        (fun b hb => hwf.onePos b (hrest_mem b hb))
        (fun b hb hemp => absurd hemp (hwf.nonem b (hrest_mem b hb)))
        hDrest hm1nodup
        (by
          intro k1 w1 hg1
          obtain ⟨hne, hg1'⟩ := hm1_to_old k1 w1 hg1
          obtain ⟨qb, hqb, hk1qb⟩ := hwf.inLedger k1 w1 hg1'
          rw [hsplit] at hqb
          rcases List.mem_cons.mp hqb with hqb | hqb
          · injection hqb with e1 e2
            rw [e2, hcond.2] at hk1qb
            rcases List.mem_cons.mp hk1qb with h | h
            · exact absurd h hne
            · cases h
          · exact ⟨qb, hqb, hk1qb⟩)
        (by
          intro k1 hk1
          have hin : k1 ∈ qt ++ ledgerKeys rest := List.mem_append_right _ hk1
          have hne : k1 ≠ e := by
            intro h
            exact hknd.1 (h ▸ hin)
          obtain ⟨w1, hw1⟩ := hwf.inMap k1 (by rw [hkeys]; exact List.mem_cons_of_mem _ hin)
          refine ⟨w1, ?_⟩
          rw [hremove_ne k1 hne]
          exact hw1)
        hm1lt hm1get
    refine ⟨fq1, ?_, ?_, hwf1⟩
    · rw [if_pos hcond]
      exact hpush
    · simp only [LfuCache.insert, if_neg hcap, hget, if_pos hfull, hsplit, hrl, hpush]
  · have hrl : remove_lfu ((f, e :: qt) :: rest) c.map =
        ((f, qt) :: rest, mapRemove e c.map) := by
      simp only [remove_lfu, if_neg hcond]
    have hcond' : f ≠ 1 → qt ≠ [] := fun h1 h2 => hcond ⟨h1, h2⟩
    obtain ⟨fq1, hpush, hwf1⟩ :=
      pushFreq1_wf (L := (f, qt) :: rest) (m := mapRemove e c.map)
        (k := k) (n := c.capacity) v
        (by
          rw [List.map_cons, List.pairwise_cons]
          exact ⟨hs0.1, hs0.2⟩)
        (by
          intro b hb
          rcases List.mem_cons.mp hb with hb | hb
          · rw [hb]
            exact hwf.onePos (f, e :: qt) hhead_mem
          · exact hwf.onePos b (hrest_mem b hb))
        (by
          intro b hb
          rcases List.mem_cons.mp hb with hb | hb
          · rw [hb]
            intro hemp
            by_contra hf1
            exact hcond' hf1 hemp
          · intro hemp
            exact absurd hemp (hwf.nonem b (hrest_mem b hb)))
        (by
          show (ledgerKeys ((f, qt) :: rest)).Nodup
          exact hknd.2)
        hm1nodup
        (by
          intro k1 w1 hg1
          obtain ⟨hne, hg1'⟩ := hm1_to_old k1 w1 hg1
          obtain ⟨qb, hqb, hk1qb⟩ := hwf.inLedger k1 w1 hg1'
          rw [hsplit] at hqb
          rcases List.mem_cons.mp hqb with hqb | hqb
          · injection hqb with e1 e2
            rw [e2] at hk1qb
            rcases List.mem_cons.mp hk1qb with h | h
            · exact absurd h hne
            · refine ⟨qt, ?_, h⟩
              rw [e1]
              exact List.mem_cons_self _ _
          · exact ⟨qb, List.mem_cons_of_mem _ hqb, hk1qb⟩)
        (by
          intro k1 hk1
          have hin : k1 ∈ qt ++ ledgerKeys rest := hk1
          have hne : k1 ≠ e := by
            intro h
            exact hknd.1 (h ▸ hin)
          obtain ⟨w1, hw1⟩ := hwf.inMap k1 (by rw [hkeys]; exact List.mem_cons_of_mem _ hin)
          refine ⟨w1, ?_⟩
          rw [hremove_ne k1 hne]
          exact hw1)
        hm1lt hm1get
    refine ⟨fq1, ?_, ?_, hwf1⟩
    · rw [if_neg hcond]
      exact hpush
    · simp only [LfuCache.insert, if_neg hcap, hget, if_pos hfull, hsplit, hrl, hpush]

theorem wf_new (cap : Nat) : WF (LfuCache.new cap : LfuCache K V) := by
  refine ⟨by simp [LfuCache.new], by simp [LfuCache.new], by simp [LfuCache.new],
    by simp [LfuCache.new, ledgerKeys], by simp [LfuCache.new], ?_, ?_,
    by simp [LfuCache.new]⟩
  · intro k w h
    simp [LfuCache.new, mapGet] at h
  · intro k h
    simp [LfuCache.new, ledgerKeys] at h

theorem insert_capzero {c : LfuCache K V} (hcap : c.capacity = 0) (k : K) (v : V) :
    c.insert k v = some c := by
  simp [LfuCache.insert, hcap]

theorem step_wf {c : LfuCache K V} (hwf : WF c) (op : Op K V) :
    ∃ c1, step c op = some c1 ∧ WF c1 ∧ c1.capacity = c.capacity := by
  cases op with
  | ins k v =>
      by_cases hcap : c.capacity = 0
      · exact ⟨c, by simp [step, insert_capzero hcap], hwf, rfl⟩
      · cases hget : mapGet k c.map with
        | some w =>
            obtain ⟨fq1, heq, hwf1⟩ := insert_existing_spec hwf hget v
            exact ⟨_, by simp [step, heq], hwf1, rfl⟩
        | none =>
            by_cases hfull : c.capacity ≤ c.map.length
            · have hne : c.map ≠ [] := by
                intro h
                rw [h] at hfull
                simp at hfull
                exact hcap hfull
              obtain ⟨f, e, qt, rest, hsplit⟩ := head_split_of_nonempty hwf hne
              obtain ⟨fq1, _, heq, hwf1⟩ :=
                insert_new_full_spec hwf hget hcap hfull hsplit v
              exact ⟨_, by simp [step, heq], hwf1, rfl⟩
            · obtain ⟨fq1, _, heq, hwf1⟩ :=
                insert_new_notfull_spec hwf hget hcap hfull v
              exact ⟨_, by simp [step, heq], hwf1, rfl⟩
  | get k =>
      cases hget : mapGet k c.map with
      | some w =>
          obtain ⟨fq1, heq, hwf1⟩ := get_hit_spec hwf hget
          exact ⟨_, by simp [step, heq], hwf1, rfl⟩
      | none => exact ⟨c, by simp [step, get_miss_spec hget], hwf, rfl⟩

theorem run_wf {c : LfuCache K V} (hwf : WF c) (ops : List (Op K V)) :
    ∃ c1, run c ops = some c1 ∧ WF c1 ∧ c1.capacity = c.capacity := by
  induction ops generalizing c with
  | nil => exact ⟨c, rfl, hwf, rfl⟩
  | cons op ops ih =>
      obtain ⟨c1, h1, hwf1, hcap1⟩ := step_wf hwf op
      obtain ⟨c2, h2, hwf2, hcap2⟩ := ih hwf1
      exact ⟨c2, by simp [run, h1, h2], hwf2, by rw [hcap2, hcap1]⟩

theorem reachable_wf {cap : Nat} {c : LfuCache K V} (h : Reachable cap c) :
    WF c ∧ c.capacity = cap := by
  obtain ⟨ops, hops⟩ := h
  obtain ⟨c1, h1, hwf1, hcap1⟩ := run_wf (wf_new cap) ops
  rw [hops] at h1
  injection h1 with e
  subst e
  exact ⟨hwf1, hcap1⟩

theorem touchOf_cons_self (t : List (K × Nat)) (k : K) (n : Nat) :
    touchOf ((k, n) :: t) k = n := by
  simp [touchOf]

theorem touchOf_cons_ne {k1 k : K} (h : k1 ≠ k) (t : List (K × Nat)) (n : Nat) :
    touchOf ((k, n) :: t) k1 = touchOf t k1 := by
  simp [touchOf, Ne.symm h]

theorem recency_preserved {t : List (K × Nat)} {n : Nat} {k : K} {q : List K}
    (hnk : k ∉ q)
    (hp : List.Pairwise (fun a c => touchOf t a < touchOf t c) q) :
    List.Pairwise
      (fun a c => touchOf ((k, n) :: t) a < touchOf ((k, n) :: t) c) q := by
  refine hp.imp_of_mem ?_
  intro a b ha hb hab
  have hna : a ≠ k := fun h => hnk (h ▸ ha)
  have hnb : b ≠ k := fun h => hnk (h ▸ hb)
  rw [touchOf_cons_ne hna t n, touchOf_cons_ne hnb t n]
  exact hab

theorem recency_push_back {t : List (K × Nat)} {clock : Nat} {k : K} {q : List K}
    (hnk : k ∉ q)
    (hlt : ∀ a ∈ q, touchOf t a < clock)
    (hp : List.Pairwise (fun a c => touchOf t a < touchOf t c) q) :
    List.Pairwise
      (fun a c => touchOf ((k, clock) :: t) a < touchOf ((k, clock) :: t) c)
      (q ++ [k]) := by
  rw [List.pairwise_append]
  refine ⟨recency_preserved hnk hp, by simp, ?_⟩
  intro a ha b hb
  rw [List.mem_singleton] at hb
  have hna : a ≠ k := fun h => hnk (h ▸ ha)
  rw [hb, touchOf_cons_self, touchOf_cons_ne hna t clock]
  exact hlt a ha

theorem mem_insTarget_cases {f : Nat} {k : K} {rest : List (Nat × List K)}
    {b : Nat × List K} (hb : b ∈ insTarget f k rest) :
    b ∈ rest ∨ b = (f + 1, [k]) ∨
      ∃ f2 q2, (f2, q2) ∈ rest ∧ b = (f2, q2 ++ [k]) := by
  cases rest with
  | nil =>
      simp only [insTarget, List.mem_singleton] at hb
      exact Or.inr (Or.inl hb)
  | cons b0 rest1 =>
      obtain ⟨f2, q2⟩ := b0
      by_cases h : f2 = f + 1
      · simp only [insTarget, if_pos h] at hb
        rcases List.mem_cons.mp hb with hb | hb
        · exact Or.inr (Or.inr ⟨f2, q2, List.mem_cons_self _ _, hb⟩)
        · exact Or.inl (List.mem_cons_of_mem _ hb)
      · simp only [insTarget, if_neg h] at hb
        rcases List.mem_cons.mp hb with hb | hb
        · exact Or.inr (Or.inl hb)
        · exact Or.inl hb

theorem promote_recency {s : TState K V} (htwf : TWF s) {k : K} {w : Value V}
    (hget : mapGet k s.cache.map = some w)
    {pre rest : List (Nat × List K)} {q : List K}
    (hsplit : s.cache.frequencies = pre ++ (w.hfreq, q) :: rest) (hk : k ∈ q) :
    (∀ b ∈ pre ++ (if qremove k q = [] then insTarget w.hfreq k rest
                   else (w.hfreq, qremove k q) :: insTarget w.hfreq k rest),
      List.Pairwise (fun a c => touchOf ((k, s.clock) :: s.touch) a <
                                touchOf ((k, s.clock) :: s.touch) c) b.2) ∧
    (∀ k1 ∈ ledgerKeys (pre ++ (if qremove k q = [] then insTarget w.hfreq k rest
                   else (w.hfreq, qremove k q) :: insTarget w.hfreq k rest)),
      touchOf ((k, s.clock) :: s.touch) k1 < s.clock + 1) := by
  have hknd := htwf.wf.keysNodup
  rw [hsplit, ledgerKeys_append, List.nodup_append] at hknd
  have hmidkeys : ledgerKeys ((w.hfreq, q) :: rest) = q ++ ledgerKeys rest := rfl
  rw [hmidkeys, List.nodup_append] at hknd
  have hkq : k ∈ q := hk
  have hknotpre : ∀ b ∈ pre, k ∉ b.2 := by
    intro b hb hkb
    exact hknd.2.2 (mem_ledgerKeys.mpr ⟨b, hb, hkb⟩) (List.mem_append_left _ hkq)
  have hknotrest : ∀ b ∈ rest, k ∉ b.2 := by
    intro b hb hkb
    exact hknd.2.1.2.2 hkq (mem_ledgerKeys.mpr ⟨b, hb, hkb⟩)
  have hqnodup : q.Nodup := hknd.2.1.1
  have hknotq1 : k ∉ qremove k q := by
    have hperm := perm_cons_qremove hkq
    have := hperm.nodup_iff.mp hqnodup
    exact (List.nodup_cons.mp this).1
  have hpre_fq : ∀ b ∈ pre, b ∈ s.cache.frequencies := by
    intro b hb
    rw [hsplit]
    exact List.mem_append_left _ hb
  have hrest_fq : ∀ b ∈ rest, b ∈ s.cache.frequencies := by
    intro b hb
    rw [hsplit]
    exact List.mem_append_right _ (List.mem_cons_of_mem _ hb)
  have hq_fq : (w.hfreq, q) ∈ s.cache.frequencies := by
    rw [hsplit]
    exact List.mem_append_right _ (List.mem_cons_self _ _)
  have hlt_rest : ∀ b ∈ rest, ∀ a ∈ b.2, touchOf s.touch a < s.clock := by
    intro b hb a ha
    refine htwf.touchLt a ?_
    rw [hsplit]
    rw [ledgerKeys_append]
    refine List.mem_append_right _ ?_
    rw [hmidkeys]
    exact List.mem_append_right _ (mem_ledgerKeys.mpr ⟨b, hb, ha⟩)
  constructor
  · intro b hb
    rcases List.mem_append.mp hb with hb | hb
    · exact recency_preserved (hknotpre b hb) (htwf.recency b (hpre_fq b hb))
    · rcases mem_promoted_mid hb with ⟨e, _⟩ | hb
      · rw [e]
        exact recency_preserved hknotq1
          ((htwf.recency (w.hfreq, q) hq_fq).sublist (qremove_sublist k q))
      · rcases mem_insTarget_cases hb with hb | hb | ⟨f2, q2, hb2, hb⟩
        · exact recency_preserved (hknotrest b hb) (htwf.recency b (hrest_fq b hb))
        · rw [hb]
          simp
        · rw [hb]
          exact recency_push_back (hknotrest (f2, q2) hb2)
            (hlt_rest (f2, q2) hb2) (htwf.recency (f2, q2) (hrest_fq (f2, q2) hb2))
  · intro k1 hk1
    have hperm := promoted_keys_perm (f := w.hfreq) hk pre rest
    have hold : k1 ∈ ledgerKeys (pre ++ (w.hfreq, q) :: rest) := hperm.mem_iff.mp hk1
    by_cases he : k1 = k
    · subst he
      rw [touchOf_cons_self]
      omega
    · rw [touchOf_cons_ne he]
      have h2 := htwf.touchLt k1 (by rw [hsplit]; exact hold)
      omega

theorem pushFreq1_recency {t : List (K × Nat)} {clock : Nat} {k : K}
    {fq fq1 : List (Nat × List K)}
    (hpush : pushFreq1 k fq = some fq1)
    (hknotin : k ∉ ledgerKeys fq)
    (hrec : ∀ b ∈ fq, List.Pairwise (fun a c => touchOf t a < touchOf t c) b.2)
    (hlt : ∀ k1 ∈ ledgerKeys fq, touchOf t k1 < clock) :
    (∀ b ∈ fq1, List.Pairwise (fun a c => touchOf ((k, clock) :: t) a <
        touchOf ((k, clock) :: t) c) b.2) ∧
    (∀ k1 ∈ ledgerKeys fq1, touchOf ((k, clock) :: t) k1 < clock + 1) := by
  have hlt1 : ∀ k1 ∈ k :: ledgerKeys fq, touchOf ((k, clock) :: t) k1 < clock + 1 := by
    intro k1 hk1
    by_cases he : k1 = k
    · subst he
      rw [touchOf_cons_self]
      omega
    · rw [touchOf_cons_ne he]
      rcases List.mem_cons.mp hk1 with h | h
      · exact absurd h he
      · have := hlt k1 h
        omega
  cases fq with
  | nil =>
      have hfq1 : fq1 = [(1, [k])] := by
        simp [pushFreq1] at hpush
        exact hpush.symm
      subst hfq1
      constructor
      · intro b hb
        simp only [List.mem_singleton] at hb
        rw [hb]
        simp
      · intro k1 hk1
        have : k1 = k := by simpa [ledgerKeys] using hk1
        subst this
        rw [touchOf_cons_self]
        omega
  | cons b0 rest =>
      obtain ⟨fh, qh⟩ := b0
      have hknotqh : k ∉ qh := by
        intro h
        exact hknotin (mem_ledgerKeys.mpr ⟨(fh, qh), List.mem_cons_self _ _, h⟩)
      have hknotrest : k ∉ ledgerKeys rest := by
        intro h
        refine hknotin ?_
        show k ∈ qh ++ ledgerKeys rest
        exact List.mem_append_right _ h
      by_cases hf : fh = 1
      · subst hf
        have hfq1 : fq1 = (1, qh ++ [k]) :: rest := by
          simp [pushFreq1] at hpush
          exact hpush.symm
        subst hfq1
        constructor
        · intro b hb
          rcases List.mem_cons.mp hb with hb | hb
          · rw [hb]
            refine recency_push_back hknotqh ?_
              (hrec (1, qh) (List.mem_cons_self _ _))
            intro a ha
            refine hlt a ?_
            show a ∈ qh ++ ledgerKeys rest
            exact List.mem_append_left _ ha
          · refine recency_preserved ?_ (hrec b (List.mem_cons_of_mem _ hb))
            intro h
            exact hknotrest (mem_ledgerKeys.mpr ⟨b, hb, h⟩)
        · intro k1 hk1
          refine hlt1 k1 ?_
          have h2 : k1 ∈ (qh ++ [k]) ++ ledgerKeys rest := hk1
          rcases List.mem_append.mp h2 with h2 | h2
          · rcases List.mem_append.mp h2 with h2 | h2
            · refine List.mem_cons_of_mem _ ?_
              show k1 ∈ qh ++ ledgerKeys rest
              exact List.mem_append_left _ h2
            · rw [List.mem_singleton] at h2
              subst h2
              exact List.mem_cons_self _ _
          · refine List.mem_cons_of_mem _ ?_
            show k1 ∈ qh ++ ledgerKeys rest
            exact List.mem_append_right _ h2
      · have hfq1 : fq1 = (1, [k]) :: (fh, qh) :: rest := by
          simp [pushFreq1, hf] at hpush
          exact hpush.symm
        subst hfq1
        constructor
        · intro b hb
          rcases List.mem_cons.mp hb with hb | hb
          · rw [hb]
            simp
          · refine recency_preserved ?_ (hrec b hb)
            intro h
            exact hknotin (mem_ledgerKeys.mpr ⟨b, hb, h⟩)
        · intro k1 hk1
          refine hlt1 k1 ?_
          have h2 : k1 ∈ [k] ++ (qh ++ ledgerKeys rest) := hk1
          rcases List.mem_append.mp h2 with h2 | h2
          · rw [List.mem_singleton] at h2
            subst h2
            exact List.mem_cons_self _ _
          · exact List.mem_cons_of_mem _ h2

theorem stepT_eq_of_step {s : TState K V} {op : Op K V} {c1 : LfuCache K V}
    (h : step s.cache op = some c1) :
    stepT s op = some
      { cache := c1,
        touch := match touchedKey s.cache op with
                 | some k => (k, s.clock) :: s.touch
                 | none => s.touch,
        clock := s.clock + 1 } := by
  simp [stepT, h]

theorem touchedKey_ins {c : LfuCache K V} (hcap : ¬c.capacity = 0) (k : K) (v : V) :
    touchedKey c (Op.ins k v) = some k := by
  simp [touchedKey, hcap]

theorem touchedKey_ins_capzero {c : LfuCache K V} (hcap : c.capacity = 0)
    (k : K) (v : V) : touchedKey c (Op.ins k v) = none := by
  simp [touchedKey, hcap]

theorem touchedKey_get_hit {c : LfuCache K V} {k : K} {w : Value V}
    (hget : mapGet k c.map = some w) : touchedKey c (Op.get k) = some k := by
  simp [touchedKey, hget]

theorem touchedKey_get_miss {c : LfuCache K V} {k : K}
    (hget : mapGet k c.map = none) : touchedKey c (Op.get k) = none := by
  simp [touchedKey, hget]

theorem stepT_twf {s : TState K V} (htwf : TWF s) (op : Op K V) :
    ∃ s1, stepT s op = some s1 ∧ TWF s1 ∧
      s1.cache.capacity = s.cache.capacity := by
  have hwf := htwf.wf
  cases op with
  | ins k v =>
      by_cases hcap : s.cache.capacity = 0
      · refine ⟨⟨s.cache, s.touch, s.clock + 1⟩, ?_, ?_, rfl⟩
        · rw [stepT_eq_of_step (show step s.cache (Op.ins k v) = some s.cache by
            simp [step, insert_capzero hcap]), touchedKey_ins_capzero hcap]
        · exact ⟨hwf, htwf.recency, fun k1 h => Nat.lt_succ_of_lt (htwf.touchLt k1 h)⟩
      · cases hget : mapGet k s.cache.map with
        | some w =>
            obtain ⟨pre, q, rest, hsplit, hk, hpre⟩ := wf_split hwf hget
            have hif := incr_freq_split (f := w.hfreq) pre rest hpre hk
            have hwf1 := promote_wf hwf hget v hsplit hk
            obtain ⟨hrec1, hlt1⟩ := promote_recency htwf hget hsplit hk
            have hstep : step s.cache (Op.ins k v) = some
                { map := mapInsert k ⟨v, w.hfreq + 1⟩ s.cache.map,
                  frequencies :=
                    pre ++ (if qremove k q = [] then insTarget w.hfreq k rest
                        else (w.hfreq, qremove k q) :: insTarget w.hfreq k rest),
                  capacity := s.cache.capacity } := by
              simp only [step, LfuCache.insert, if_neg hcap, hget, hsplit, hif]
            refine ⟨⟨{ map := mapInsert k ⟨v, w.hfreq + 1⟩ s.cache.map,
                       frequencies :=
                         pre ++ (if qremove k q = [] then insTarget w.hfreq k rest
                             else (w.hfreq, qremove k q) :: insTarget w.hfreq k rest),
                       capacity := s.cache.capacity },
                     (k, s.clock) :: s.touch, s.clock + 1⟩, ?_, ?_, rfl⟩
            · rw [stepT_eq_of_step hstep, touchedKey_ins hcap]
            · exact ⟨hwf1, hrec1, hlt1⟩
        | none =>
            have hknot : k ∉ ledgerKeys s.cache.frequencies := by
              intro hmem
              obtain ⟨w1, hw1⟩ := hwf.inMap k hmem
              rw [hget] at hw1
              cases hw1
            by_cases hfull : s.cache.capacity ≤ s.cache.map.length
            · have hne : s.cache.map ≠ [] := by
                intro h
                rw [h] at hfull
                simp at hfull
                exact hcap hfull
              obtain ⟨f, e, qt, rest, hsplit⟩ := head_split_of_nonempty hwf hne
              obtain ⟨fq1, hpush, heq, hwf1⟩ :=
                insert_new_full_spec hwf hget hcap hfull hsplit v
              have hkeysfq : ledgerKeys s.cache.frequencies =
                  e :: (qt ++ ledgerKeys rest) := by
                rw [hsplit]
                rfl
              have hsubL1 : ∀ k1,
                  k1 ∈ ledgerKeys (if f ≠ 1 ∧ qt = [] then rest else (f, qt) :: rest) →
                  k1 ∈ ledgerKeys s.cache.frequencies := by
                intro k1 h1
                rw [hkeysfq]
                by_cases hcond : f ≠ 1 ∧ qt = []
                · rw [if_pos hcond] at h1
                  exact List.mem_cons_of_mem _ (List.mem_append_right _ h1)
                · rw [if_neg hcond] at h1
                  have h2 : k1 ∈ qt ++ ledgerKeys rest := h1
                  exact List.mem_cons_of_mem _ h2
              have hrecL1 : ∀ b ∈ (if f ≠ 1 ∧ qt = [] then rest else (f, qt) :: rest),
                  List.Pairwise (fun a c => touchOf s.touch a < touchOf s.touch c) b.2 := by
                intro b hb
                by_cases hcond : f ≠ 1 ∧ qt = []
                · rw [if_pos hcond] at hb
                  exact htwf.recency b (by rw [hsplit]; exact List.mem_cons_of_mem _ hb)
                · rw [if_neg hcond] at hb
                  rcases List.mem_cons.mp hb with hb | hb
                  · rw [hb]
                    have h3 := htwf.recency (f, e :: qt)
                      (by rw [hsplit]; exact List.mem_cons_self _ _)
                    exact h3.of_cons
                  · exact htwf.recency b (by rw [hsplit]; exact List.mem_cons_of_mem _ hb)
              obtain ⟨hrec1, hlt1⟩ := pushFreq1_recency hpush
                (fun h => hknot (hsubL1 k h)) hrecL1
                (fun k1 h1 => htwf.touchLt k1 (hsubL1 k1 h1))
              have hstep : step s.cache (Op.ins k v) = some
                  { map := mapInsert k ⟨v, 1⟩ (mapRemove e s.cache.map),
                    frequencies := fq1, capacity := s.cache.capacity } := by
                simp [step, heq]
              refine ⟨⟨{ map := mapInsert k ⟨v, 1⟩ (mapRemove e s.cache.map),
                         frequencies := fq1, capacity := s.cache.capacity },
                       (k, s.clock) :: s.touch, s.clock + 1⟩, ?_, ?_, rfl⟩
              · rw [stepT_eq_of_step hstep, touchedKey_ins hcap]
              · exact ⟨hwf1, hrec1, hlt1⟩
            · obtain ⟨fq1, hpush, heq, hwf1⟩ :=
                insert_new_notfull_spec hwf hget hcap hfull v
              obtain ⟨hrec1, hlt1⟩ :=
                pushFreq1_recency hpush hknot htwf.recency htwf.touchLt
              have hstep : step s.cache (Op.ins k v) = some
                  { map := mapInsert k ⟨v, 1⟩ s.cache.map,
                    frequencies := fq1, capacity := s.cache.capacity } := by
                simp [step, heq]
              refine ⟨⟨{ map := mapInsert k ⟨v, 1⟩ s.cache.map,
                         frequencies := fq1, capacity := s.cache.capacity },
                       (k, s.clock) :: s.touch, s.clock + 1⟩, ?_, ?_, rfl⟩
              · rw [stepT_eq_of_step hstep, touchedKey_ins hcap]
              · exact ⟨hwf1, hrec1, hlt1⟩
  | get k =>
      cases hget : mapGet k s.cache.map with
      | some w =>
          obtain ⟨pre, q, rest, hsplit, hk, hpre⟩ := wf_split hwf hget
          have hif := incr_freq_split (f := w.hfreq) pre rest hpre hk
          have hwf1 := promote_wf hwf hget w.value hsplit hk
          obtain ⟨hrec1, hlt1⟩ := promote_recency htwf hget hsplit hk
          have hstep : step s.cache (Op.get k) = some
              { map := mapInsert k ⟨w.value, w.hfreq + 1⟩ s.cache.map,
                frequencies :=
                  pre ++ (if qremove k q = [] then insTarget w.hfreq k rest
                      else (w.hfreq, qremove k q) :: insTarget w.hfreq k rest),
                capacity := s.cache.capacity } := by
            simp [step, LfuCache.get, hget, hsplit, hif]
          refine ⟨⟨{ map := mapInsert k ⟨w.value, w.hfreq + 1⟩ s.cache.map,
                     frequencies :=
                       pre ++ (if qremove k q = [] then insTarget w.hfreq k rest
                           else (w.hfreq, qremove k q) :: insTarget w.hfreq k rest),
                     capacity := s.cache.capacity },
                   (k, s.clock) :: s.touch, s.clock + 1⟩, ?_, ?_, rfl⟩
          · rw [stepT_eq_of_step hstep, touchedKey_get_hit hget]
          · exact ⟨hwf1, hrec1, hlt1⟩
      | none =>
          refine ⟨⟨s.cache, s.touch, s.clock + 1⟩, ?_, ?_, rfl⟩
          · rw [stepT_eq_of_step (show step s.cache (Op.get k) = some s.cache by
              simp [step, get_miss_spec hget]), touchedKey_get_miss hget]
          · exact ⟨hwf, htwf.recency, fun k1 h => Nat.lt_succ_of_lt (htwf.touchLt k1 h)⟩

theorem runT_twf {s : TState K V} (htwf : TWF s) (ops : List (Op K V)) :
    ∃ s1, runT s ops = some s1 ∧ TWF s1 ∧
      s1.cache.capacity = s.cache.capacity := by
  induction ops generalizing s with
  | nil => exact ⟨s, rfl, htwf, rfl⟩
  | cons op ops ih =>
      obtain ⟨s1, h1, htwf1, hcap1⟩ := stepT_twf htwf op
      obtain ⟨s2, h2, htwf2, hcap2⟩ := ih htwf1
      exact ⟨s2, by simp [runT, h1, h2], htwf2, by rw [hcap2, hcap1]⟩

theorem twf_init (cap : Nat) : TWF (TState.init cap : TState K V) := by
  refine ⟨wf_new cap, ?_, ?_⟩
  · intro b hb
    simp [TState.init, LfuCache.new] at hb
  · intro k h
    simp [TState.init, LfuCache.new, ledgerKeys] at h

theorem treachable_twf {cap : Nat} {s : TState K V} (h : TReachable cap s) :
    TWF s ∧ s.cache.capacity = cap := by
  obtain ⟨ops, hops⟩ := h
  obtain ⟨s1, h1, htwf1, hcap1⟩ := runT_twf (twf_init cap) ops
  rw [hops] at h1
  injection h1 with e
  subst e
  exact ⟨htwf1, hcap1⟩

/-- Claim C2, counterexample: as stated the claim is false on the code. On the
reachable configuration reached by `new 1; insert 0 0` (ledger `[(1, [0])]`,
map `[(0, ⟨0, 1⟩)]`), `remove_lfu` pops the front key of the head bucket,
leaving its queue empty, yet the frequency-1 bucket is retained in the ledger
(the result's ledger is `[(1, [])]`, not `[]`), because the purge is guarded by
`queue.0 != 1`. -/
theorem claim_C2_purge_counterexample :
    remove_lfu [(1, [0])] [(0, (⟨0, 1⟩ : Value Nat))] =
      ([(1, [])], []) ∧
    (remove_lfu [(1, [0])] [(0, (⟨0, 1⟩ : Value Nat))]).1 ≠ [] := by
  exact ⟨rfl, by decide⟩

/-- Claim C2, amended: after `remove_lfu` pops the front key of the head
bucket, the bucket is removed from the ledger exactly when its key sequence is
now empty AND its frequency is not 1; an emptied frequency-1 bucket is
retained (and reused by the enclosing `insert`). -/
theorem claim_C2_amended_purge (f : Nat) (key : K) (qt : List K)
    (rest : List (Nat × List K)) (m : List (K × Value V)) :
    remove_lfu ((f, key :: qt) :: rest) m =
      (if f ≠ 1 ∧ qt = [] then rest else (f, qt) :: rest, mapRemove key m) := by
  by_cases hcond : f ≠ 1 ∧ qt = []
  · simp only [remove_lfu, if_pos hcond]
  · simp only [remove_lfu, if_neg hcond]

/-- Claim C3: for every capacity and every operation sequence applied to
`new cap`, the number of entries in the cache never exceeds the capacity. -/
theorem claim_C3_capacity_invariant {n : Nat} {c : LfuCache K V}
    (hreach : Reachable n c) : c.map.length ≤ n := by
  obtain ⟨hwf, hcap⟩ := reachable_wf hreach
  rw [← hcap]
  exact hwf.sizeLe

/-- Claim C3 witness at a concrete reachable state. -/
theorem claim_C3_capacity_invariant_witness :
    (LfuCache.mk [(1, ⟨10, 1⟩), (2, ⟨20, 1⟩)] [(1, [1, 2])] 2 :
      LfuCache Nat Nat).map.length ≤ 2 :=
  claim_C3_capacity_invariant ⟨[Op.ins 1 10, Op.ins 2 20], by rfl⟩

/-- Claim C4: after every public operation, the frequency ledger is sorted
strictly ascending by frequency; whenever the cache is nonempty the ledger is
nonempty, and the head bucket's frequency is attained by a cached key and is a
lower bound of every cached key's frequency (i.e. it is the global minimum
frequency among cached keys). -/
theorem claim_C4_ledger_sorted_head_min {n : Nat} {c : LfuCache K V}
    (hreach : Reachable n c) :
    List.Pairwise (· < ·) (c.frequencies.map Prod.fst) ∧
    (c.map ≠ [] → c.frequencies ≠ []) ∧
    (∀ b, c.frequencies.head? = some b →
      (∃ k w, mapGet k c.map = some w ∧ w.hfreq = b.1) ∧
      (∀ k w, mapGet k c.map = some w → b.1 ≤ w.hfreq)) := by
  obtain ⟨hwf, _⟩ := reachable_wf hreach
  refine ⟨hwf.sorted, ?_, ?_⟩
  · intro hne
    obtain ⟨f, e, qt, rest, hsplit⟩ := head_split_of_nonempty hwf hne
    rw [hsplit]
    simp
  · intro b hb
    have hbfq : ∃ tail, c.frequencies = b :: tail := by
      cases hfq : c.frequencies with
      | nil =>
          rw [hfq] at hb
          cases hb
      | cons b0 tail =>
          rw [hfq] at hb
          injection hb with e1
          exact ⟨tail, by rw [e1]⟩
    obtain ⟨tail, hfq⟩ := hbfq
    have hbmem : b ∈ c.frequencies := by
      rw [hfq]
      exact List.mem_cons_self _ _
    constructor
    · have hbne : b.2 ≠ [] := hwf.nonem b hbmem
      obtain ⟨e, hes⟩ : ∃ e, e ∈ b.2 := by
        cases h2 : b.2 with
        | nil => exact absurd h2 hbne
        | cons e es => exact ⟨e, List.mem_cons_self _ _⟩
      obtain ⟨w, hw⟩ := hwf.inMap e (mem_ledgerKeys.mpr ⟨b, hbmem, hes⟩)
      obtain ⟨q1, hq1, heq1⟩ := hwf.inLedger e w hw
      have hbb := ledger_key_unique hwf.keysNodup hbmem hes hq1 heq1
      refine ⟨e, w, hw, ?_⟩
      rw [hbb]
    · intro k w hw
      obtain ⟨q1, hq1, _⟩ := hwf.inLedger k w hw
      rw [hfq] at hq1
      rcases List.mem_cons.mp hq1 with hq1 | hq1
      · rw [← hq1]
      · have hs := hwf.sorted
        rw [hfq, List.map_cons, List.pairwise_cons] at hs
        exact Nat.le_of_lt (hs.1 (w.hfreq, q1).1 (List.mem_map_of_mem _ hq1))

/-- Claim C4 witness at a concrete reachable state. -/
theorem claim_C4_ledger_sorted_head_min_witness :
    List.Pairwise (· < ·)
      ((LfuCache.mk [(1, ⟨10, 2⟩), (2, ⟨20, 1⟩)] [(1, [2]), (2, [1])] 2 :
        LfuCache Nat Nat).frequencies.map Prod.fst) ∧
    ((LfuCache.mk [(1, ⟨10, 2⟩), (2, ⟨20, 1⟩)] [(1, [2]), (2, [1])] 2 :
        LfuCache Nat Nat).map ≠ [] →
      (LfuCache.mk [(1, ⟨10, 2⟩), (2, ⟨20, 1⟩)] [(1, [2]), (2, [1])] 2 :
        LfuCache Nat Nat).frequencies ≠ []) ∧
    (∀ b, (LfuCache.mk [(1, ⟨10, 2⟩), (2, ⟨20, 1⟩)] [(1, [2]), (2, [1])] 2 :
        LfuCache Nat Nat).frequencies.head? = some b →
      (∃ k w, mapGet k (LfuCache.mk [(1, ⟨10, 2⟩), (2, ⟨20, 1⟩)]
          [(1, [2]), (2, [1])] 2 : LfuCache Nat Nat).map = some w ∧
        w.hfreq = b.1) ∧
      (∀ k w, mapGet k (LfuCache.mk [(1, ⟨10, 2⟩), (2, ⟨20, 1⟩)]
          [(1, [2]), (2, [1])] 2 : LfuCache Nat Nat).map = some w →
        b.1 ≤ w.hfreq)) :=
  claim_C4_ledger_sorted_head_min (n := 2)
    ⟨[Op.ins 1 10, Op.ins 2 20, Op.get 1], by rfl⟩

/-- Claim C5: re-inserting a present key `k` (stored record `w`, so frequency
`w.hfreq`) stores the new value and raises the frequency to `w.hfreq + 1` —
in particular it does not reset it to 1 — and a subsequent `get` returns the
new value. -/
theorem claim_C5_overwrite_is_access {n : Nat} {c : LfuCache K V} {k : K}
    {w : Value V} (hreach : Reachable n c)
    (hget : mapGet k c.map = some w) (v : V) :
    ∃ c1, c.insert k v = some c1 ∧
      mapGet k c1.map = some ⟨v, w.hfreq + 1⟩ ∧
      w.hfreq + 1 ≠ 1 ∧
      ∃ c2, c1.get k = some (some v, c2) := by
  obtain ⟨hwf, _⟩ := reachable_wf hreach
  obtain ⟨fq1, heq, hwf1⟩ := insert_existing_spec hwf hget v
  refine ⟨_, heq, mapGet_mapInsert_self k _ c.map, ?_, ?_⟩
  · obtain ⟨q1, hq1, _⟩ := hwf.inLedger k w hget
    have h1 := hwf.onePos _ hq1
    omega
  · obtain ⟨fq2, heq2, _⟩ :=
      get_hit_spec hwf1 (mapGet_mapInsert_self k ⟨v, w.hfreq + 1⟩ c.map)
    exact ⟨_, heq2⟩

/-- Claim C5 witness at a concrete reachable state. -/
theorem claim_C5_overwrite_is_access_witness :
    ∃ c1, (LfuCache.mk [(1, ⟨10, 1⟩)] [(1, [1])] 2 :
        LfuCache Nat Nat).insert 1 99 = some c1 ∧
      mapGet 1 c1.map = some ⟨99, 2⟩ ∧
      (1 : Nat) + 1 ≠ 1 ∧
      ∃ c2, c1.get 1 = some (some 99, c2) :=
  claim_C5_overwrite_is_access (n := 2)
    (c := LfuCache.mk [(1, ⟨10, 1⟩)] [(1, [1])] 2) (k := 1) (w := ⟨10, 1⟩)
    ⟨[Op.ins 1 10], by rfl⟩ (by rfl) 99

/-- Claim C7: with capacity 0, every operation sequence leaves the cache in
its initial state: every insert is a no-op and every get is a miss. -/
theorem claim_C7_zero_capacity (ops : List (Op K V)) (k : K) (v : V) :
    run (LfuCache.new 0) ops = some (LfuCache.new 0) ∧
    (LfuCache.new 0 : LfuCache K V).insert k v = some (LfuCache.new 0) ∧
    (LfuCache.new 0 : LfuCache K V).get k = some (none, LfuCache.new 0) := by
  refine ⟨?_, insert_capzero rfl k v,
    get_miss_spec (by simp [LfuCache.new, mapGet])⟩
  induction ops with
  | nil => rfl
  | cons op ops ih =>
      have hstep : step (LfuCache.new 0 : LfuCache K V) op =
          some (LfuCache.new 0) := by
        cases op with
        | ins k1 v1 =>
            have h0 : (LfuCache.new 0 : LfuCache K V).insert k1 v1 =
                some (LfuCache.new 0) := insert_capzero rfl k1 v1
            simp [step, h0]
        | get k1 =>
            have hmiss : mapGet k1 (LfuCache.new 0 : LfuCache K V).map = none := by
              simp [LfuCache.new, mapGet]
            simp [step, get_miss_spec hmiss]
      simp [run, hstep, ih]

/-- Claim C8: `get` on an absent key returns the miss signal and returns the
cache completely unchanged (this holds for every cache state, reachable or
not). -/
theorem claim_C8_idempotent_miss (c : LfuCache K V) (k : K)
    (hget : mapGet k c.map = none) :
    c.get k = some (none, c) :=
  get_miss_spec hget

/-- Claim C8 witness at a concrete state. -/
theorem claim_C8_idempotent_miss_witness :
    (LfuCache.new 3 : LfuCache Nat Nat).get 5 =
      some (none, LfuCache.new 3) :=
  claim_C8_idempotent_miss (LfuCache.new 3) 5 rfl

/-- Claim C9: no sequence of public operations starting from a freshly
constructed cache panics: the run always produces a state (`none` in the
model marks the places where the Rust code would panic — the `unwrap` in
`insert`, and the locator handles resolved by `incr_freq` and
`remove_lfu`). -/
theorem claim_C9_no_panics (cap : Nat) (ops : List (Op K V)) :
    ∃ c, run (LfuCache.new cap) ops = some c := by
  obtain ⟨c1, h1, _, _⟩ := run_wf (wf_new cap : WF (LfuCache.new cap : LfuCache K V)) ops
  exact ⟨c1, h1⟩

/-- Claim C10: inserting an already-present key never evicts: the cache size
is unchanged, every other key's record (value and frequency) is unchanged,
and the key itself is still present. -/
theorem claim_C10_reinsert_frame {n : Nat} {c : LfuCache K V} {k : K}
    {w : Value V} (hreach : Reachable n c)
    (hget : mapGet k c.map = some w) (v : V) :
    ∃ c1, c.insert k v = some c1 ∧
      c1.map.length = c.map.length ∧
      (∀ k1, k1 ≠ k → mapGet k1 c1.map = mapGet k1 c.map) ∧
      (∃ w1, mapGet k c1.map = some w1) ∧
      c1.capacity = c.capacity := by
  obtain ⟨hwf, _⟩ := reachable_wf hreach
  obtain ⟨fq1, heq, _⟩ := insert_existing_spec hwf hget v
  refine ⟨_, heq, ?_, ?_, ⟨_, mapGet_mapInsert_self k _ c.map⟩, rfl⟩
  · exact length_mapInsert_of_get_some hget _
  · intro k1 hk1
    exact mapGet_mapInsert_ne hk1 _ c.map

/-- Claim C10 witness at a concrete reachable state (full cache). -/
theorem claim_C10_reinsert_frame_witness :
    ∃ c1, (LfuCache.mk [(1, ⟨10, 1⟩), (2, ⟨20, 1⟩)] [(1, [1, 2])] 2 :
        LfuCache Nat Nat).insert 1 99 = some c1 ∧
      c1.map.length =
        (LfuCache.mk [(1, ⟨10, 1⟩), (2, ⟨20, 1⟩)] [(1, [1, 2])] 2 :
          LfuCache Nat Nat).map.length ∧
      (∀ k1, k1 ≠ 1 → mapGet k1 c1.map =
        mapGet k1 (LfuCache.mk [(1, ⟨10, 1⟩), (2, ⟨20, 1⟩)] [(1, [1, 2])] 2 :
          LfuCache Nat Nat).map) ∧
      (∃ w1, mapGet 1 c1.map = some w1) ∧
      c1.capacity =
        (LfuCache.mk [(1, ⟨10, 1⟩), (2, ⟨20, 1⟩)] [(1, [1, 2])] 2 :
          LfuCache Nat Nat).capacity :=
  claim_C10_reinsert_frame (n := 2)
    (c := LfuCache.mk [(1, ⟨10, 1⟩), (2, ⟨20, 1⟩)] [(1, [1, 2])] 2)
    (k := 1) (w := ⟨10, 1⟩)
    ⟨[Op.ins 1 10, Op.ins 2 20], by rfl⟩ (by rfl) 99

/-- Claim C1: for every cache with capacity ≥ 1 reached by any sequence of
insert/get operations (instrumented with last-touch times: a key's touch is
the index of the operation that last inserted-or-accessed it), when `insert`
is called with an absent key while the cache holds exactly `cap` entries,
an entry `e` is evicted; its recorded frequency is a lower bound of every
cached entry's frequency (it is the global minimum), and among the cached
keys sharing that minimum frequency, `e` has the strictly smallest last-touch
time, i.e. it is the least recently inserted-or-accessed one. -/
theorem claim_C1_eviction_policy {n : Nat} {s : TState K V} {k : K}
    (hreach : TReachable n s) (hcap : 1 ≤ n)
    (hfull : s.cache.map.length = n)
    (habsent : mapGet k s.cache.map = none) (v : V) :
    ∃ e we c1, mapGet e s.cache.map = some we ∧
      s.cache.insert k v = some c1 ∧
      mapGet e c1.map = none ∧
      (∀ k1 w1, mapGet k1 s.cache.map = some w1 → we.hfreq ≤ w1.hfreq) ∧
      (∀ k1 w1, mapGet k1 s.cache.map = some w1 → w1.hfreq = we.hfreq →
        k1 ≠ e → touchOf s.touch e < touchOf s.touch k1) := by
  obtain ⟨htwf, hcapeq⟩ := treachable_twf hreach
  have hwf := htwf.wf
  have hcap0 : ¬s.cache.capacity = 0 := by omega
  have hfull1 : s.cache.capacity ≤ s.cache.map.length := by omega
  have hne : s.cache.map ≠ [] := by
    intro h
    rw [h] at hfull
    simp at hfull
    omega
  obtain ⟨f, e, qt, rest, hsplit⟩ := head_split_of_nonempty hwf hne
  have he_led : e ∈ ledgerKeys s.cache.frequencies := by
    rw [hsplit]
    show e ∈ (e :: qt) ++ ledgerKeys rest
    exact List.mem_append_left _ (List.mem_cons_self _ _)
  obtain ⟨we, hwe⟩ := hwf.inMap e he_led
  have hhead_mem : (f, e :: qt) ∈ s.cache.frequencies := by
    rw [hsplit]
    exact List.mem_cons_self _ _
  obtain ⟨qe, hqe, heqe⟩ := hwf.inLedger e we hwe
  have hbeq : (f, e :: qt) = (we.hfreq, qe) :=
    ledger_key_unique hwf.keysNodup hhead_mem (List.mem_cons_self _ _) hqe heqe
  have hfeq : we.hfreq = f := by
    injection hbeq with e1 _
    exact e1.symm
  obtain ⟨fq1, hpush, heq, hwf1⟩ :=
    insert_new_full_spec hwf habsent hcap0 hfull1 hsplit v
  have hke : k ≠ e := by
    intro h
    rw [h, hwe] at habsent
    cases habsent
  refine ⟨e, we, _, hwe, heq, ?_, ?_, ?_⟩
  · show mapGet e (mapInsert k ⟨v, 1⟩ (mapRemove e s.cache.map)) = none
    rw [mapGet_mapInsert_ne (Ne.symm hke)]
    exact mapGet_mapRemove_self hwf.mapNodup
  · intro k1 w1 hg1
    obtain ⟨qb, hqb, hk1qb⟩ := hwf.inLedger k1 w1 hg1
    rw [hsplit] at hqb
    rcases List.mem_cons.mp hqb with hqb | hqb
    · injection hqb with e1 _
      rw [hfeq, e1]
    · have hs := hwf.sorted
      rw [hsplit, List.map_cons, List.pairwise_cons] at hs
      have h3 := hs.1 (w1.hfreq, qb).1 (List.mem_map_of_mem _ hqb)
      rw [hfeq]
      exact Nat.le_of_lt h3
  · intro k1 w1 hg1 hfr hne1
    obtain ⟨qb, hqb, hk1qb⟩ := hwf.inLedger k1 w1 hg1
    have hfr1 : w1.hfreq = f := by rw [hfr, hfeq]
    have hqb_eq : qb = e :: qt := by
      refine bucket_unique (freqs_nodup hwf) ?_ hhead_mem
      rw [← hfr1]
      exact hqb
    rw [hqb_eq] at hk1qb
    rcases List.mem_cons.mp hk1qb with h | h
    · exact absurd h hne1
    · have hrec := htwf.recency (f, e :: qt) hhead_mem
      exact List.rel_of_pairwise_cons hrec h

/-- Claim C1 witness: the cache `new 2` after `insert 1 10; insert 2 20;
get 1` (key 1 at frequency 2, key 2 at frequency 1, touch times 2, 1); the
insert of absent key 3 evicts the minimum-frequency, least-recently-touched
entry. -/
theorem claim_C1_eviction_policy_witness :
    ∃ e we c1,
      mapGet e ([(1, ⟨10, 2⟩), (2, ⟨20, 1⟩)] : List (Nat × Value Nat)) =
        some we ∧
      (LfuCache.mk [(1, ⟨10, 2⟩), (2, ⟨20, 1⟩)] [(1, [2]), (2, [1])] 2).insert
        3 30 = some c1 ∧
      mapGet e c1.map = none ∧
      (∀ k1 w1, mapGet k1 ([(1, ⟨10, 2⟩), (2, ⟨20, 1⟩)] :
          List (Nat × Value Nat)) = some w1 → we.hfreq ≤ w1.hfreq) ∧
      (∀ k1 w1, mapGet k1 ([(1, ⟨10, 2⟩), (2, ⟨20, 1⟩)] :
          List (Nat × Value Nat)) = some w1 → w1.hfreq = we.hfreq → k1 ≠ e →
        touchOf [(1, 2), (2, 1), (1, 0)] e <
          touchOf [(1, 2), (2, 1), (1, 0)] k1) :=
  claim_C1_eviction_policy (n := 2)
    (s := TState.mk
      (LfuCache.mk [(1, ⟨10, 2⟩), (2, ⟨20, 1⟩)] [(1, [2]), (2, [1])] 2)
      [(1, 2), (2, 1), (1, 0)] 3)
    (k := 3)
    ⟨[Op.ins 1 10, Op.ins 2 20, Op.get 1], by rfl⟩ (by omega) (by rfl)
    (by rfl) 30

/-- Claim C6: the promotion protocol. First conjunct, the structural shape of
`incr_freq` on any ledger whose first bucket of frequency `f` holds `k`: the
key is erased from that bucket; it is pushed to the back of the immediately
following bucket when that bucket's frequency is exactly `f + 1`, and
otherwise into a fresh bucket `(f + 1, [k])` spliced immediately after the
original bucket (`insTarget` is exactly that step); afterwards the original
bucket is kept if and only if its remaining queue is nonempty; the recorded
frequency returned is exactly `f + 1`. Second conjunct: on reachable states,
a `get` of a cached key and a re-`insert` of a cached key each raise that
key's frequency by exactly 1. -/
theorem claim_C6_promotion_protocol :
    (∀ (f : Nat) (k : K) (q : List K) (pre rest : List (Nat × List K)),
      (∀ b ∈ pre, b.1 ≠ f) → k ∈ q →
      incr_freq f k (pre ++ (f, q) :: rest) =
        some (pre ++ (if qremove k q = [] then insTarget f k rest
                else (f, qremove k q) :: insTarget f k rest), f + 1)) ∧
    (∀ (n : Nat) (c : LfuCache K V) (k : K) (fv : Nat),
      Reachable n c → freqOf c k = some fv →
      (∃ c1, step c (Op.get k) = some c1 ∧ freqOf c1 k = some (fv + 1)) ∧
      (∀ v, ∃ c1, step c (Op.ins k v) = some c1 ∧
        freqOf c1 k = some (fv + 1))) := by
  constructor
  · intro f k q pre rest hpre hk
    exact incr_freq_split pre rest hpre hk
  · intro n c k fv hreach hf
    obtain ⟨hwf, _⟩ := reachable_wf hreach
    obtain ⟨w, hget, hweq⟩ : ∃ w, mapGet k c.map = some w ∧ w.hfreq = fv := by
      unfold freqOf at hf
      cases hg : mapGet k c.map with
      | none =>
          rw [hg] at hf
          cases hf
      | some w =>
          rw [hg] at hf
          injection hf with e1
          exact ⟨w, rfl, e1⟩
    subst hweq
    constructor
    · obtain ⟨fq1, heq, _⟩ := get_hit_spec hwf hget
      refine ⟨{ map := mapInsert k ⟨w.value, w.hfreq + 1⟩ c.map,
                frequencies := fq1, capacity := c.capacity },
        by simp [step, heq], ?_⟩
      simp [freqOf, mapGet_mapInsert_self]
    · intro v
      obtain ⟨fq1, heq, _⟩ := insert_existing_spec hwf hget v
      refine ⟨{ map := mapInsert k ⟨v, w.hfreq + 1⟩ c.map,
                frequencies := fq1, capacity := c.capacity },
        by simp [step, heq], ?_⟩
      simp [freqOf, mapGet_mapInsert_self]

/-- Claim C6 witness: the promotion shape at a concrete ledger (key 5 leaves
the frequency-1 bucket and lands at the back of a fresh frequency-2 bucket),
and the frequency increment of a `get` at a concrete reachable state. -/
theorem claim_C6_promotion_protocol_witness :
    incr_freq 1 5 [(1, [5, 6])] = some ([(1, [6]), (2, [5])], 2) ∧
    (∃ c1, step (LfuCache.mk [(7, ⟨70, 1⟩)] [(1, [7])] 2 : LfuCache Nat Nat)
        (Op.get 7) = some c1 ∧
      freqOf c1 7 = some 2) := by
  constructor
  · have h := (claim_C6_promotion_protocol (K := Nat) (V := Nat)).1 1 5 [5, 6]
      [] [] (by simp) (by simp)
    simpa [qremove, insTarget] using h
  · exact (claim_C6_promotion_protocol.2 2
      (LfuCache.mk [(7, ⟨70, 1⟩)] [(1, [7])] 2) 7 1
      ⟨[Op.ins 7 70], by rfl⟩ (by rfl)).1

end LfuSpec
